import Mathlib

/-!
Verification of the yeongeum720 update script (`scripts/update_yeongeum720.mjs`).

The script fetches a public lottery-results page, extracts per-round draw
records from the normalized page text with two regex scans, merges them into a
persisted history keyed by round, builds frequency tables, and derives
deterministic (non-random) ticket recommendations.

The repository file contains three revisions of the script.  The whole-text
scanning extractor, `buildFreq` and the guarded `recommendFromFreq` are from the
middle revision (the one the specification describes); definitions suffixed
`V1` come from the first revision (line-based extractor, unguarded generator)
and those suffixed `V3` from the third revision (descending-order merge,
`second.groups` record field, `generateRecommendations`).

Modelling conventions:
* network fetch, file I/O and timestamps are external; extraction functions
  take the already-normalized page text as an argument, and timestamp / source
  URL fields of the serialized artifacts are omitted;
* JS `%` on integers is `Int.tmod` (truncated remainder, sign of dividend);
* JS array indexing that can yield `undefined` is modelled with `Option`;
* JS objects whose keys are all array-index strings enumerate their keys in
  ascending numeric order, so count objects are association lists kept sorted
  ascending by key; JS `Map` preserves insertion order, so `Map`s are
  association lists in insertion order;
* JS `Array.prototype.sort` is a stable sort, modelled with `stableSort` below.
-/

namespace Yeongeum

/-- JS array read `l[i]`: `undefined` (here `none`) for a negative or
out-of-range index. -/
def jsGet {α : Type} (l : List α) (i : Int) : Option α :=
  if 0 ≤ i then l.get? i.toNat else none

/-- Insert `x` after every element `y` of an already-sorted list with
`le y x = true`.  Auxiliary to `stableSort`. -/
def insertLe {α : Type} (le : α → α → Bool) (x : α) : List α → List α
  | [] => [x]
  | y :: ys => if le y x then y :: insertLe le x ys else x :: y :: ys

/-- JS `Array.prototype.sort` with a consistent comparator is a stable sort,
and the stable sorted permutation is unique, so any stable sort models it;
this is stable insertion sort (chosen over `List.mergeSort` so that concrete
runs reduce in the kernel). -/
def stableSort {α : Type} (le : α → α → Bool) (l : List α) : List α :=
  l.foldl (fun acc x => insertLe le x acc) []

/-- JS `\s` character class (ECMAScript WhiteSpace ∪ LineTerminator). -/
def isJsSpace (c : Char) : Bool :=
  c.val = 32 ∨ c.val = 9 ∨ c.val = 10 ∨ c.val = 11 ∨ c.val = 12 ∨ c.val = 13 ∨
  c.val = 160 ∨ c.val = 0x1680 ∨ (0x2000 ≤ c.val ∧ c.val ≤ 0x200A) ∨
  c.val = 0x2028 ∨ c.val = 0x2029 ∨ c.val = 0x202F ∨ c.val = 0x205F ∨
  c.val = 0x3000 ∨ c.val = 0xFEFF

/-- Numeric value of an ASCII digit character. -/
def digitVal (c : Char) : Nat := c.toNat - 48

/-- `ymdDotToIso`: `"2026.02.19" -> "2026-02-19"`; `null` (`none`) when the
string does not match `^(\d{4})\.(\d{2})\.(\d{2})$`. -/
def ymdDotToIso (s : String) : Option String :=
  match s.data with
  | [a, b, c, d, p, e, f, q, g, h] =>
    if a.isDigit ∧ b.isDigit ∧ c.isDigit ∧ d.isDigit ∧ p = '.' ∧
       e.isDigit ∧ f.isDigit ∧ q = '.' ∧ g.isDigit ∧ h.isDigit then
      some (String.mk [a, b, c, d, '-', e, f, '-', g, h])
    else none
  | _ => none

/-- Greedy run of ASCII digits at the head of the text: the run and the rest. -/
def digitRun : List Char → List Char × List Char
  | [] => ([], [])
  | c :: cs =>
    if c.isDigit then
      let (r, rest) := digitRun cs
      (c :: r, rest)
    else ([], c :: cs)

/-- Greedy `\s*`. -/
def skipWs : List Char → List Char
  | [] => []
  | c :: cs => if isJsSpace c then skipWs cs else c :: cs

/-- Nat value of a digit run (JS `Number` on a decimal digit string). -/
def natOfDigits (ds : List Char) : Nat :=
  ds.foldl (fun acc c => acc * 10 + digitVal c) 0

/-- Subpattern `(\d{4}\.\d{2}\.\d{2})`: the captured date text and the rest. -/
def matchDate : List Char → Option (String × List Char)
  | a :: b :: c :: d :: p :: e :: f :: q :: g :: h :: rest =>
    if a.isDigit ∧ b.isDigit ∧ c.isDigit ∧ d.isDigit ∧ p = '.' ∧
       e.isDigit ∧ f.isDigit ∧ q = '.' ∧ g.isDigit ∧ h.isDigit then
      some (String.mk [a, b, c, d, p, e, f, q, g, h], rest)
    else none
  | _ => none

/-- `k` repetitions of `\s*([0-9])`: the captured digits and the rest. -/
def spacedDigits : Nat → List Char → Option (List Nat × List Char)
  | 0, cs => some ([], cs)
  | k + 1, cs =>
    match skipWs cs with
    | [] => none
    | c :: cs' =>
      if c.isDigit then
        (spacedDigits k cs').map (fun r => (digitVal c :: r.1, r.2))
      else none

/-- A match of the primary-record pattern
`(\d{1,4})회\s*(\d{4}\.\d{2}\.\d{2})\s*1등\s*([1-5])` followed by six
`\s*([0-9])` groups and `\s*(\d+)` (an entry of `firstMatches`). -/
structure FirstM where
  index : Nat
  round : Nat
  dateDot : String
  group : Nat
  digits : List Nat
  winners : Nat
  rawLen : Nat
deriving DecidableEq

/-- A match of the bonus-record pattern `보너스\s*각조` followed by six
`\s*([0-9])` groups and `\s*(\d+)` (an entry of `bonusMatches`). -/
structure BonusM where
  index : Nat
  digits : List Nat
  winners : Nat
  rawLen : Nat
deriving DecidableEq

/-- Attempt the primary-record regex at the start of `cs`.  Returns the match
(with `index := 0`, filled in by the scanner) and the unconsumed rest.  The
regex's tokens are pairwise non-overlapping (digits, `\s`, fixed literals), so
greedy matching without backtracking coincides with ECMAScript semantics. -/
def matchFirstAt (cs : List Char) : Option (FirstM × List Char) :=
  let (r1, rest1) := digitRun cs
  if r1.length = 0 ∨ 4 < r1.length then none
  else
    match rest1 with
    | '회' :: rest2 =>
      match matchDate (skipWs rest2) with
      | none => none
      | some (dateDot, rest3) =>
        match skipWs rest3 with
        | '1' :: '등' :: rest4 =>
          match skipWs rest4 with
          | g :: rest5 =>
            if '1' ≤ g ∧ g ≤ '5' then
              match spacedDigits 6 rest5 with
              | none => none
              | some (digits, rest6) =>
                let (w, rest7) := digitRun (skipWs rest6)
                if w.length = 0 then none
                else
                  some ({ index := 0, round := natOfDigits r1, dateDot := dateDot,
                          group := digitVal g, digits := digits,
                          winners := natOfDigits w,
                          rawLen := cs.length - rest7.length }, rest7)
            else none
          | [] => none
        | _ => none
    | _ => none

/-- Attempt the bonus-record regex `보너스\s*각조\s*([0-9])…\s*(\d+)` at the
start of `cs`. -/
def matchBonusAt (cs : List Char) : Option (BonusM × List Char) :=
  match cs with
  | '보' :: '너' :: '스' :: rest1 =>
    match skipWs rest1 with
    | '각' :: '조' :: rest2 =>
      match spacedDigits 6 rest2 with
      | none => none
      | some (digits, rest3) =>
        let (w, rest4) := digitRun (skipWs rest3)
        if w.length = 0 then none
        else
          some ({ index := 0, digits := digits, winners := natOfDigits w,
                  rawLen := cs.length - rest4.length }, rest4)
    | _ => none
  | _ => none

/-- `String.matchAll` loop for the primary pattern: find the leftmost match at
or after the current position, emit it, resume after its end.  `fuel` bounds
the recursion (every step consumes at least one character). -/
def scanFirstAux : Nat → List Char → Nat → List FirstM
  | 0, _, _ => []
  | _ + 1, [], _ => []
  | fuel + 1, c :: rest, pos =>
    match matchFirstAt (c :: rest) with
    | some (f, after) =>
      let len := (c :: rest).length - after.length
      let step := max len 1
      { f with index := pos, rawLen := len } ::
        scanFirstAux fuel ((c :: rest).drop step) (pos + step)
    | none => scanFirstAux fuel rest (pos + 1)

/-- `[...text.matchAll(reFirst)]` over the normalized text. -/
def scanFirst (text : String) : List FirstM :=
  scanFirstAux text.data.length text.data 0

/-- `String.matchAll` loop for the bonus pattern. -/
def scanBonusAux : Nat → List Char → Nat → List BonusM
  | 0, _, _ => []
  | _ + 1, [], _ => []
  | fuel + 1, c :: rest, pos =>
    match matchBonusAt (c :: rest) with
    | some (b, after) =>
      let len := (c :: rest).length - after.length
      let step := max len 1
      { b with index := pos, rawLen := len } ::
        scanBonusAux fuel ((c :: rest).drop step) (pos + step)
    | none => scanBonusAux fuel rest (pos + 1)

/-- `[...text.matchAll(reBonus)]` over the normalized text. -/
def scanBonus (text : String) : List BonusM :=
  scanBonusAux text.data.length text.data 0

/-- `first` field of a draw record: winning group, six digits, winner count. -/
structure FirstPart where
  group : Nat
  digits : List Nat
  winners : Nat
deriving DecidableEq

/-- `bonus` field of a draw record. -/
structure BonusPart where
  digits : List Nat
  winners : Nat
deriving DecidableEq

/-- A draw record as pushed by the extractor and persisted in
`yeongeum720_draws.json`.  The constant `source` provenance string is
omitted. -/
structure Draw where
  round : Nat
  date : Option String
  first : FirstPart
  bonus : Option BonusPart
deriving DecidableEq

/-- The record the extractor pushes for a primary match `f` with associated
bonus match `bo`. -/
def mkDraw (f : FirstM) (bo : Option BonusM) : Draw :=
  { round := f.round, date := ymdDotToIso f.dateDot,
    first := { group := f.group, digits := f.digits, winners := f.winners },
    bonus := bo.map (fun c => { digits := c.digits, winners := c.winners }) }

/-- The bonus-association loop of `fetchDrawsFromPrimary`: iterate primary
matches in textual order; advance the bonus cursor past matches starting
before the current primary match's start (`bonusMatches[b].index < f.index`);
attach the next bonus match iff `0 ≤ dist ≤ 200` where
`dist = candidate.index - (f.index + f.rawLen)`, consuming it.  The cursor into
`bonusMatches` is represented by the remaining suffix of the list. -/
def assocLoop : List FirstM → List BonusM → List Draw
  | [], _ => []
  | f :: fs, bs =>
    let bs1 := bs.dropWhile (fun x => x.index < f.index)
    match bs1 with
    | cand :: rest =>
      if f.index + f.rawLen ≤ cand.index ∧ cand.index ≤ f.index + f.rawLen + 200 then
        mkDraw f (some cand) :: assocLoop fs rest
      else
        mkDraw f none :: assocLoop fs bs1
    | [] => mkDraw f none :: assocLoop fs []

/-- Companion of `assocLoop` recording, per primary match, which bonus match
(if any) was attached. -/
def chosenB : List FirstM → List BonusM → List (Option BonusM)
  | [], _ => []
  | f :: fs, bs =>
    let bs1 := bs.dropWhile (fun x => x.index < f.index)
    match bs1 with
    | cand :: rest =>
      if f.index + f.rawLen ≤ cand.index ∧ cand.index ≤ f.index + f.rawLen + 200 then
        some cand :: chosenB fs rest
      else
        none :: chosenB fs bs1
    | [] => none :: chosenB fs []

/-- JS `Map.prototype.set` on an insertion-ordered association list: an
existing key keeps its position and gets the new value; a new key is appended
at the end. -/
def mapSet : List (Nat × Draw) → Nat → Draw → List (Nat × Draw)
  | [], k, v => [(k, v)]
  | (k', v') :: rest, k, v =>
    if k = k' then (k', v) :: rest else (k', v') :: mapSet rest k v

/-- `for (const d of ds) map.set(d.round, d)` starting from `init`. -/
def buildRoundMap (init : List (Nat × Draw)) (ds : List Draw) : List (Nat × Draw) :=
  ds.foldl (fun m d => mapSet m d.round d) init

/-- `[...new Map(draws.map(d => [d.round, d])).values()]`: per round the last
record in scan order wins; values come out in first-occurrence order. -/
def dedupByRound (ds : List Draw) : List Draw :=
  (buildRoundMap [] ds).map Prod.snd

/-- Comparator `(a, b) => a.round - b.round` (ascending). -/
def roundLeAsc (a b : Draw) : Bool := a.round ≤ b.round

/-- Comparator `(a, b) => b.round - a.round` (descending). -/
def roundLeDesc (a b : Draw) : Bool := b.round ≤ a.round

/-- `.sort((a, b) => a.round - b.round)`. -/
def sortByRoundAsc (ds : List Draw) : List Draw := stableSort roundLeAsc ds

/-- The extraction-empty error thrown when the primary pattern matched
nothing. -/
def parseFailMsg : String :=
  "Failed to parse draws from primary source: https://signalfire85.tistory.com/277\n(페이지 구조가 바뀌었거나, Actions에서 받은 HTML이 달라졌을 수 있음)"

/-- `fetchDrawsFromPrimary` on the already-fetched, normalized page text: scan
both patterns over the whole text, fail if no primary match, associate bonuses,
deduplicate by round and sort ascending. -/
def fetchDrawsFromPrimary (text : String) : Except String (List Draw) :=
  let firstMatches := scanFirst text
  let bonusMatches := scanBonus text
  if firstMatches.isEmpty then Except.error parseFailMsg
  else Except.ok (sortByRoundAsc (dedupByRound (assocLoop firstMatches bonusMatches)))

/-- The merge step of `main` (middle revision): persisted records first, then
fetched records overlaid into the round-keyed map, values sorted ascending by
round. -/
def mergeDraws (persisted fetched : List Draw) : List Draw :=
  stableSort roundLeAsc ((buildRoundMap (buildRoundMap [] persisted) fetched).map Prod.snd)

/-- The merge step of the third revision's `main`: identical round-keyed
overlay, but sorted descending by round (`(a, b) => b.round - a.round`). -/
def mergeDrawsV3 (persisted fetched : List Draw) : List Draw :=
  stableSort roundLeDesc ((buildRoundMap (buildRoundMap [] persisted) fetched).map Prod.snd)

/-- Contents of `yeongeum720_draws.json` after a `main` run without
`--no-update`: on a successful extraction the merged list is written; when the
extraction throws, `main` aborts before the write and the persisted file is
untouched. -/
def storedDraws (persisted : List Draw) (text : String) : List Draw :=
  match fetchDrawsFromPrimary text with
  | Except.ok fetched => mergeDraws persisted fetched
  | Except.error _ => persisted

/-- A JS count object whose keys are array-index strings (`"0"`..): keys
enumerate in ascending numeric order regardless of insertion time, so it is an
association list sorted ascending by key. -/
abbrev CountMap := List (Nat × Nat)

/-- `inc(obj, k)`: `obj[k] = (obj[k] ?? 0) + 1`, keeping the ascending key
enumeration of integer-like object keys. -/
def objInc : CountMap → Nat → CountMap
  | [], k => [(k, 1)]
  | (k', v) :: rest, k =>
    if k = k' then (k', v + 1) :: rest
    else if k < k' then (k, 1) :: (k', v) :: rest
    else (k', v) :: objInc rest k

/-- `obj[k]` on a count object (`undefined`/`none` when absent). -/
def lookupCount : CountMap → Nat → Option Nat
  | [], _ => none
  | (k', v) :: rest, k => if k = k' then some v else lookupCount rest k

/-- `makeEmptyDigitCounts()`: keys `"0"`..`"9"` at count 0. -/
def makeEmptyDigitCounts : CountMap :=
  [(0, 0), (1, 0), (2, 0), (3, 0), (4, 0), (5, 0), (6, 0), (7, 0), (8, 0), (9, 0)]

/-- `makeEmptyGroupCounts()`: keys `"1"`..`"5"` at count 0. -/
def makeEmptyGroupCounts : CountMap :=
  [(1, 0), (2, 0), (3, 0), (4, 0), (5, 0)]

/-- The comparator of `rankCounts`: descending count, ties broken by ascending
numeric key (`if (db !== da) return db - da; return Number(a) - Number(b)`). -/
def rankLe (a b : Nat × Nat) : Bool :=
  decide (b.2 < a.2 ∨ (a.2 = b.2 ∧ a.1 ≤ b.1))

/-- `rankCounts` (middle revision): sort the keys by the comparator and emit
`{digit, count}` entries; with unique keys this is a stable sort of the
entries themselves. -/
def rankCounts (m : CountMap) : List (Nat × Nat) :=
  stableSort rankLe m

/-- `rankKeysByCount` (first revision, `numeric = true`): the sorted keys
only. -/
def rankKeysByCount (m : CountMap) : List Nat :=
  (stableSort rankLe m).map Prod.fst

/-- JS `Map` bump `map.set(k, (map.get(k) || 0) + 1)`: existing key keeps its
insertion position; a fresh key is appended. -/
def mapBump : List (String × Nat) → String → List (String × Nat)
  | [], k => [(k, 1)]
  | (k', v) :: rest, k =>
    if k = k' then (k', v + 1) :: rest else (k', v) :: mapBump rest k

/-- `digits.slice(1).join("")`: the 5-digit suffix string. -/
def joinDigits (xs : List Nat) : String :=
  xs.foldl (fun s x => s ++ toString x) ""

/-- The comparator of the `last5Top` sort, `(a, b) => b[1] - a[1]`: descending
count only, ties keep insertion (first-occurrence) order via sort
stability. -/
def last5Le (a b : String × Nat) : Bool :=
  decide (b.2 ≤ a.2)

/-- `POS_NAMES`. -/
def POS_NAMES : List String := ["십만", "만", "천", "백", "십", "일"]

/-- One entry of `freq.positions` / `freq.bonus.positions`. -/
structure PosFreq where
  name : String
  counts : CountMap
  ranked : List (Nat × Nat)
deriving DecidableEq

/-- The serialized frequency table of the middle revision's `buildFreq`
(timestamp and source fields omitted). -/
structure Freq where
  roundsMin : Option Nat
  roundsMax : Option Nat
  roundsCount : Nat
  groupCounts : CountMap
  groupRanked : List (Nat × Nat)
  positions : List PosFreq
  overallCounts : CountMap
  overallRanked : List (Nat × Nat)
  bonusPositions : List PosFreq
  bonusOverallCounts : CountMap
  bonusOverallRanked : List (Nat × Nat)
  last5Top : List (String × Nat)
deriving DecidableEq

/-- `digits.forEach((digit, idx) => inc(counts[idx], digit))`: bump the `i`-th
count object with the `i`-th digit.  (When `digits` is longer than the six
position objects the script would throw on `undefined`; draw records always
carry exactly six digits.) -/
def incDigits : List CountMap → List Nat → List CountMap
  | pcs, [] => pcs
  | [], _ :: _ => []
  | p :: ps, x :: xs => objInc p x :: incDigits ps xs

/-- Accumulator of `buildFreq`'s fold over the draw list. -/
structure FreqState where
  groupCounts : CountMap
  posCounts : List CountMap
  overallCounts : CountMap
  bonusPosCounts : List CountMap
  bonusOverallCounts : CountMap
  last5Map : List (String × Nat)

/-- Initial accumulator: zero-filled group and digit count objects, empty
suffix map. -/
def initFreqState : FreqState :=
  { groupCounts := makeEmptyGroupCounts
    posCounts := List.replicate 6 makeEmptyDigitCounts
    overallCounts := makeEmptyDigitCounts
    bonusPosCounts := List.replicate 6 makeEmptyDigitCounts
    bonusOverallCounts := makeEmptyDigitCounts
    last5Map := [] }

/-- Body of `for (const d of draws)` in `buildFreq`. -/
def stepDraw (st : FreqState) (d : Draw) : FreqState :=
  { groupCounts := objInc st.groupCounts d.first.group
    posCounts := incDigits st.posCounts d.first.digits
    overallCounts := d.first.digits.foldl objInc st.overallCounts
    bonusPosCounts :=
      match d.bonus with
      | some b => incDigits st.bonusPosCounts b.digits
      | none => st.bonusPosCounts
    bonusOverallCounts :=
      match d.bonus with
      | some b => b.digits.foldl objInc st.bonusOverallCounts
      | none => st.bonusOverallCounts
    last5Map := mapBump st.last5Map (joinDigits (d.first.digits.drop 1)) }

/-- `buildFreq` (middle revision): fold the history, then rank every
fixed-domain count object and keep the top 20 of the sparse suffix map. -/
def buildFreq (draws : List Draw) : Freq :=
  let st := draws.foldl stepDraw initFreqState
  { roundsMin :=
      match draws with
      | [] => none
      | d :: ds => some (ds.foldl (fun a x => min a x.round) d.round)
    roundsMax :=
      match draws with
      | [] => none
      | d :: ds => some (ds.foldl (fun a x => max a x.round) d.round)
    roundsCount := draws.length
    groupCounts := st.groupCounts
    groupRanked := rankCounts st.groupCounts
    positions := List.zipWith (fun nm c => PosFreq.mk nm c (rankCounts c)) POS_NAMES st.posCounts
    overallCounts := st.overallCounts
    overallRanked := rankCounts st.overallCounts
    bonusPositions := List.zipWith (fun nm c => PosFreq.mk nm c (rankCounts c)) POS_NAMES st.bonusPosCounts
    bonusOverallCounts := st.bonusOverallCounts
    bonusOverallRanked := rankCounts st.bonusOverallCounts
    last5Top := (stableSort last5Le st.last5Map).take 20 }

/-- `pickIndex` (middle revision): cycle an index into a tier-dependent rank
band; JS `%` is the truncated remainder. -/
def pickIndex (tier : String) (pos : Nat) (idx : Int) (len : Nat) : Int :=
  if len ≤ 1 then 0
  else
    let span : Nat :=
      if tier = "top" then min 1 len
      else if tier = "topmix" then min 3 len
      else if tier = "mix" then min 6 len
      else len
    let tailBias : Nat := if 4 ≤ pos then 0 else 1
    Int.tmod (idx + ((pos * 2 + tailBias : Nat) : Int)) (span : Int)

/-- A recommended ticket `{group, digits}`.  JS array reads past the end or at
a negative index yield `undefined`, hence the `Option`s. -/
structure Ticket where
  group : Option Nat
  digits : List (Option Nat)
deriving DecidableEq

/-- The generator's empty-table error message. -/
def noDataMsg : String :=
  "추천할 데이터가 없습니다. 먼저 update 워크플로우로 data/*.json을 생성하세요."

/-- `recommendFromFreq` (middle revision): refuse a zero-round table, else
emit `n` tickets by cycling `cycle + i` through the ranked lists. -/
def recommendFromFreq (freq : Freq) (n : Nat) (cycle : Int) : Except String (List Ticket) :=
  if freq.roundsCount = 0 then Except.error noDataMsg
  else
    let groupRank := freq.groupRanked.map Prod.fst
    let posRank := freq.positions.map (fun p => p.ranked.map Prod.fst)
    let tier := if n = 1 then "top" else if n = 5 then "topmix" else "mix"
    Except.ok ((List.range n).map (fun (i : Nat) =>
      let idx : Int := cycle + (i : Int)
      let group := jsGet groupRank (Int.tmod idx (groupRank.length : Int))
      let digits := (List.range 6).map (fun p =>
        let r := (posRank.get? p).getD []
        jsGet r (pickIndex tier (p + 1) idx r.length))
      { group := group, digits := digits }))

/-- The first revision's frequency artifact (`group_counts`, `digit_counts`,
`bonus_digit_counts`, `tail5_digit_counts`; timestamp and source omitted). -/
structure FreqV1 where
  rounds : Nat
  maxRound : Option Nat
  groupCounts : CountMap
  digitCounts : List CountMap
  bonusDigitCounts : List CountMap
  tail5Counts : List CountMap
deriving DecidableEq

/-- `buildFreq` (first revision): same counting fold; `tail5_digit_counts`
tallies positions 2..6 only. -/
def buildFreqV1 (draws : List Draw) : FreqV1 :=
  let step := fun (st : CountMap × List CountMap × List CountMap × List CountMap) (d : Draw) =>
    (objInc st.1 d.first.group,
     incDigits st.2.1 d.first.digits,
     (match d.bonus with
      | some b => incDigits st.2.2.1 b.digits
      | none => st.2.2.1),
     incDigits st.2.2.2 (d.first.digits.drop 1))
  let st := draws.foldl step
    (makeEmptyGroupCounts, List.replicate 6 makeEmptyDigitCounts,
     List.replicate 6 makeEmptyDigitCounts, List.replicate 5 makeEmptyDigitCounts)
  { rounds := draws.length
    maxRound :=
      match draws with
      | [] => none
      | d :: ds => some (ds.foldl (fun a x => max a x.round) d.round)
    groupCounts := st.1
    digitCounts := st.2.1
    bonusDigitCounts := st.2.2.1
    tail5Counts := st.2.2.2 }

/-- `pickIndex` (first revision): identical bands plus an explicit dead
`"wide"` branch. -/
def pickIndexV1 (tier : String) (pos : Nat) (idx : Int) (len : Nat) : Int :=
  if len ≤ 1 then 0
  else
    let span : Nat :=
      if tier = "top" then min 1 len
      else if tier = "topmix" then min 3 len
      else if tier = "mix" then min 6 len
      else if tier = "wide" then len
      else len
    let tailBias : Nat := if 4 ≤ pos then 0 else 1
    Int.tmod (idx + ((pos * 2 + tailBias : Nat) : Int)) (span : Int)

/-- `recommendFromFreq` (first revision): NO zero-round guard — it emits
tickets even from an all-zero frequency table. -/
def recommendFromFreqV1 (freq : FreqV1) (n : Nat) (cycle : Int) : List Ticket :=
  let groupRank := rankKeysByCount freq.groupCounts
  let digitRank := freq.digitCounts.map rankKeysByCount
  let tier := if n = 1 then "top" else if n = 5 then "topmix" else "mix"
  (List.range n).map (fun (i : Nat) =>
    let idx : Int := cycle + (i : Int)
    let group := jsGet groupRank (Int.tmod idx (groupRank.length : Int))
    let digits := (List.range 6).map (fun p =>
      let r := (digitRank.get? p).getD []
      jsGet r (pickIndexV1 tier (p + 1) idx r.length))
    { group := group, digits := digits })

/-- `second.groups` of a draw record in the third revision's extractor:
`[1, 2, 3, 4, 5].filter((g) => g !== group)` — the alternate groups sharing
the winning digits. -/
def secondGroups (group : Nat) : List Nat :=
  [1, 2, 3, 4, 5].filter (fun g => g ≠ group)

/-- A concrete valid draw record (round 303) used in witnesses and
counterexamples. -/
def demoDraw : Draw :=
  ⟨303, some "2026-02-19", ⟨4, [6, 3, 9, 5, 6, 6], 1⟩, some ⟨[6, 1, 9, 1, 3, 6], 10⟩⟩

/-- A draw whose primary suffix is `"99999"` (round 1). -/
def cxDrawA : Draw := ⟨1, none, ⟨1, [0, 9, 9, 9, 9, 9], 0⟩, none⟩

/-- A draw whose primary suffix is `"00000"` (round 2). -/
def cxDrawB : Draw := ⟨2, none, ⟨2, [0, 0, 0, 0, 0, 0], 0⟩, none⟩

/-- A primary match whose date token does not parse as `YYYY.MM.DD`. -/
def badDateFirst : FirstM :=
  ⟨0, 7, "2026/02/19", 3, [1, 2, 3, 4, 5, 6], 2, 34⟩

/-- The ordering the specification prescribes for the suffix top-20: keys by
descending count, ties broken by ascending natural (numeric) key order. -/
def SuffixRankOrdered (l : List (String × Nat)) : Prop :=
  l.Pairwise (fun a b => b.2 < a.2 ∨ (a.2 = b.2 ∧ natOfDigits a.1.data < natOfDigits b.1.data))

/-- The enumerated keys of a count object. -/
def keysOf (m : CountMap) : List Nat := m.map Prod.fst

/-- The ten digit keys of a zero-initialized digit count object. -/
def digitKeys : List Nat := [0, 1, 2, 3, 4, 5, 6, 7, 8, 9]

/-- Key-set invariant of a count object: strictly ascending key enumeration
containing at least the zero-initialized base keys. -/
def KeysInv (base : List Nat) (m : CountMap) : Prop :=
  (keysOf m).Pairwise (· < ·) ∧ ∀ k ∈ base, k ∈ keysOf m

/-- Invariant carried through `buildFreq`'s fold. -/
def StInv (st : FreqState) : Prop :=
  KeysInv [1, 2, 3, 4, 5] st.groupCounts ∧
  st.posCounts.length = 6 ∧ (∀ c ∈ st.posCounts, KeysInv digitKeys c) ∧
  st.bonusPosCounts.length = 6 ∧ (∀ c ∈ st.bonusPosCounts, KeysInv digitKeys c)

/-- `map.get(r)` on the insertion-ordered association list. -/
def lookupRound : List (Nat × Draw) → Nat → Option Draw
  | [], _ => none
  | (k', v) :: rest, k => if k = k' then some v else lookupRound rest k

/-- Every entry's value carries its key as `round` (all entries are created by
`map.set(d.round, d)`). -/
def RoundKeyed (m : List (Nat × Draw)) : Prop :=
  ∀ kv ∈ m, (Prod.snd kv).round = kv.1

/-! ### Lemmas about count objects -/

theorem mem_keysOf_objInc_of_mem {m : CountMap} {k k' : Nat}
    (h : k' ∈ keysOf m) : k' ∈ keysOf (objInc m k) := by
  induction m with
  | nil => simp [keysOf] at h
  | cons hd tl ih =>
    obtain ⟨kh, vh⟩ := hd
    simp only [keysOf, List.map_cons, List.mem_cons] at h
    rcases Nat.lt_trichotomy k kh with lt | e | gt
    · have ne : k ≠ kh := Nat.ne_of_lt lt
      simp only [objInc, if_neg ne, if_pos lt, keysOf, List.map_cons, List.mem_cons]
      tauto
    · simp only [objInc, if_pos e, keysOf, List.map_cons, List.mem_cons]
      tauto
    · have ne : k ≠ kh := Nat.ne_of_gt gt
      have nlt : ¬ k < kh := Nat.not_lt.mpr (Nat.le_of_lt gt)
      simp only [objInc, if_neg ne, if_neg nlt, keysOf, List.map_cons, List.mem_cons]
      rcases h with h | h
      · tauto
      · exact Or.inr (ih h)

theorem self_mem_keysOf_objInc (m : CountMap) (k : Nat) :
    k ∈ keysOf (objInc m k) := by
  induction m with
  | nil => simp [objInc, keysOf]
  | cons hd tl ih =>
    obtain ⟨kh, vh⟩ := hd
    rcases Nat.lt_trichotomy k kh with lt | e | gt
    · have ne : k ≠ kh := Nat.ne_of_lt lt
      simp [objInc, if_neg ne, if_pos lt, keysOf]
    · simp [objInc, if_pos e, keysOf, e]
    · have ne : k ≠ kh := Nat.ne_of_gt gt
      have nlt : ¬ k < kh := Nat.not_lt.mpr (Nat.le_of_lt gt)
      simp only [objInc, if_neg ne, if_neg nlt, keysOf, List.map_cons, List.mem_cons]
      exact Or.inr ih

theorem keysOf_objInc_subset {m : CountMap} {k k' : Nat}
    (h : k' ∈ keysOf (objInc m k)) : k' = k ∨ k' ∈ keysOf m := by
  induction m with
  | nil => simpa [objInc, keysOf] using h
  | cons hd tl ih =>
    obtain ⟨kh, vh⟩ := hd
    rcases Nat.lt_trichotomy k kh with lt | e | gt
    · have ne : k ≠ kh := Nat.ne_of_lt lt
      simp only [objInc, if_neg ne, if_pos lt, keysOf, List.map_cons, List.mem_cons] at h
      simp only [keysOf, List.map_cons, List.mem_cons]
      tauto
    · subst e
      simp only [objInc, if_true, eq_self_iff_true, keysOf, List.map_cons,
        List.mem_cons, ite_true] at h
      simp only [keysOf, List.map_cons, List.mem_cons]
      tauto
    · have ne : k ≠ kh := Nat.ne_of_gt gt
      have nlt : ¬ k < kh := Nat.not_lt.mpr (Nat.le_of_lt gt)
      simp only [objInc, if_neg ne, if_neg nlt, keysOf, List.map_cons, List.mem_cons] at h
      simp only [keysOf, List.map_cons, List.mem_cons]
      rcases h with h | h
      · tauto
      · rcases ih h with h | h <;> tauto

theorem pairwise_keysOf_objInc {m : CountMap} {k : Nat}
    (h : (keysOf m).Pairwise (· < ·)) : (keysOf (objInc m k)).Pairwise (· < ·) := by
  induction m with
  | nil => simp [objInc, keysOf]
  | cons hd tl ih =>
    obtain ⟨kh, vh⟩ := hd
    simp only [keysOf, List.map_cons, List.pairwise_cons] at h
    obtain ⟨hhd, htl⟩ := h
    rcases Nat.lt_trichotomy k kh with lt | e | gt
    · have ne : k ≠ kh := Nat.ne_of_lt lt
      simp only [objInc, if_neg ne, if_pos lt, keysOf, List.map_cons, List.pairwise_cons]
      refine ⟨?_, hhd, htl⟩
      intro a ha
      rcases List.mem_cons.mp ha with h | h
      · exact h ▸ lt
      · exact Nat.lt_trans lt (hhd _ (by simpa [keysOf] using h))
    · simp only [objInc, if_pos e, keysOf, List.map_cons, List.pairwise_cons]
      exact ⟨hhd, htl⟩
    · have ne : k ≠ kh := Nat.ne_of_gt gt
      have nlt : ¬ k < kh := Nat.not_lt.mpr (Nat.le_of_lt gt)
      simp only [objInc, if_neg ne, if_neg nlt, keysOf, List.map_cons, List.pairwise_cons]
      refine ⟨?_, ih htl⟩
      intro a ha
      rcases keysOf_objInc_subset (by simpa [keysOf] using ha) with h | h
      · exact h ▸ gt
      · exact hhd _ h

theorem lookupCount_objInc_ne {m : CountMap} {k k' : Nat} (h : k' ≠ k) :
    lookupCount (objInc m k) k' = lookupCount m k' := by
  induction m with
  | nil => simp [objInc, lookupCount, h]
  | cons hd tl ih =>
    obtain ⟨kh, vh⟩ := hd
    rcases Nat.lt_trichotomy k kh with lt | e | gt
    · have ne : k ≠ kh := Nat.ne_of_lt lt
      simp [objInc, if_neg ne, if_pos lt, lookupCount, h]
    · subst e
      simp [objInc, lookupCount, h]
    · have ne : k ≠ kh := Nat.ne_of_gt gt
      have nlt : ¬ k < kh := Nat.not_lt.mpr (Nat.le_of_lt gt)
      simp only [objInc, if_neg ne, if_neg nlt, lookupCount]
      by_cases e' : k' = kh
      · simp [e']
      · simp [e', ih]

theorem mem_of_lookupCount {m : CountMap} {k c : Nat}
    (h : lookupCount m k = some c) : (k, c) ∈ m := by
  induction m with
  | nil => simp [lookupCount] at h
  | cons hd tl ih =>
    obtain ⟨kh, vh⟩ := hd
    by_cases e : k = kh
    · subst e
      simp only [lookupCount, eq_self_iff_true, ite_true, Option.some.injEq] at h
      subst h
      exact List.mem_cons_self _ _
    · simp only [lookupCount, if_neg e] at h
      exact List.mem_cons_of_mem _ (ih h)

/-- Two strictly ascending lists with the same members are equal. -/
theorem sorted_lt_eq_of_mem_iff :
    ∀ {l₁ l₂ : List Nat}, l₁.Pairwise (· < ·) → l₂.Pairwise (· < ·) →
      (∀ x, x ∈ l₁ ↔ x ∈ l₂) → l₁ = l₂
  | [], [], _, _, _ => rfl
  | [], b :: t₂, _, _, hm => by
    have := (hm b).mpr (List.mem_cons_self _ _)
    simp at this
  | a :: t₁, [], _, _, hm => by
    have := (hm a).mp (List.mem_cons_self _ _)
    simp at this
  | a :: t₁, b :: t₂, h₁, h₂, hm => by
    obtain ⟨h₁h, h₁t⟩ := List.pairwise_cons.mp h₁
    obtain ⟨h₂h, h₂t⟩ := List.pairwise_cons.mp h₂
    have hab : a = b := by
      rcases List.mem_cons.mp ((hm a).mp (List.mem_cons_self _ _)) with e | ha
      · exact e
      · rcases List.mem_cons.mp ((hm b).mpr (List.mem_cons_self _ _)) with e | hb
        · exact e.symm
        · exact absurd (Nat.lt_trans (h₂h a ha) (h₁h b hb)) (Nat.lt_irrefl b)
    subst hab
    have htl : ∀ x, x ∈ t₁ ↔ x ∈ t₂ := by
      intro x
      constructor
      · intro hx
        rcases List.mem_cons.mp ((hm x).mp (List.mem_cons_of_mem _ hx)) with e | h
        · exact absurd (e ▸ h₁h x hx) (Nat.lt_irrefl _)
        · exact h
      · intro hx
        rcases List.mem_cons.mp ((hm x).mpr (List.mem_cons_of_mem _ hx)) with e | h
        · exact absurd (e ▸ h₂h x hx) (Nat.lt_irrefl _)
        · exact h
    rw [sorted_lt_eq_of_mem_iff h₁t h₂t htl]

/-! ### Lemmas about the stable sort -/

theorem insertLe_perm {α : Type} (le : α → α → Bool) (x : α) :
    ∀ l : List α, (insertLe le x l).Perm (x :: l)
  | [] => List.Perm.refl _
  | y :: ys => by
    by_cases h : le y x
    · simp only [insertLe, if_pos h]
      exact ((insertLe_perm le x ys).cons y).trans (List.Perm.swap x y ys)
    · simp only [insertLe, if_neg h]
      exact List.Perm.refl _

theorem stableSort_perm_aux {α : Type} (le : α → α → Bool) :
    ∀ (l acc : List α), (l.foldl (fun acc x => insertLe le x acc) acc).Perm (acc ++ l)
  | [], acc => by simp
  | x :: l, acc => by
    have h1 := stableSort_perm_aux le l (insertLe le x acc)
    have h2 : (insertLe le x acc ++ l).Perm (acc ++ x :: l) :=
      ((insertLe_perm le x acc).append_right l).trans List.perm_middle.symm
    exact h1.trans h2

theorem stableSort_perm {α : Type} (le : α → α → Bool) (l : List α) :
    (stableSort le l).Perm l := by
  simpa using stableSort_perm_aux le l []

theorem insertLe_pairwise {α : Type} {le : α → α → Bool}
    (htrans : ∀ a b c, le a b = true → le b c = true → le a c = true)
    (htot : ∀ a b, (le a b || le b a) = true) (x : α) :
    ∀ {l : List α}, l.Pairwise (le · · = true) →
      (insertLe le x l).Pairwise (le · · = true)
  | [], _ => List.pairwise_cons.mpr ⟨by simp, List.Pairwise.nil⟩
  | y :: ys, h => by
    obtain ⟨hy, hys⟩ := List.pairwise_cons.mp h
    by_cases hc : le y x
    · simp only [insertLe, if_pos hc]
      refine List.pairwise_cons.mpr ⟨?_, insertLe_pairwise htrans htot x hys⟩
      intro b hb
      rcases List.mem_cons.mp (((insertLe_perm le x ys).mem_iff).mp hb) with rfl | hb'
      · exact hc
      · exact hy b hb'
    · have hxy : le x y = true := by
        rcases Bool.or_eq_true _ _ |>.mp (htot y x) with h' | h'
        · exact absurd h' hc
        · exact h'
      simp only [insertLe, if_neg hc]
      refine List.pairwise_cons.mpr ⟨?_, h⟩
      intro b hb
      rcases List.mem_cons.mp hb with rfl | hb'
      · exact hxy
      · exact htrans x y b hxy (hy b hb')

theorem stableSort_pairwise_aux {α : Type} {le : α → α → Bool}
    (htrans : ∀ a b c, le a b = true → le b c = true → le a c = true)
    (htot : ∀ a b, (le a b || le b a) = true) :
    ∀ (l acc : List α), acc.Pairwise (le · · = true) →
      (l.foldl (fun acc x => insertLe le x acc) acc).Pairwise (le · · = true)
  | [], _, h => h
  | x :: l, acc, h =>
    stableSort_pairwise_aux htrans htot l (insertLe le x acc)
      (insertLe_pairwise htrans htot x h)

theorem stableSort_pairwise {α : Type} {le : α → α → Bool}
    (htrans : ∀ a b c, le a b = true → le b c = true → le a c = true)
    (htot : ∀ a b, (le a b || le b a) = true) (l : List α) :
    (stableSort le l).Pairwise (le · · = true) :=
  stableSort_pairwise_aux htrans htot l [] List.Pairwise.nil

/-! ### Lemmas about the ranking comparators -/

theorem rankLe_trans : ∀ a b c : Nat × Nat,
    rankLe a b = true → rankLe b c = true → rankLe a c = true := by
  intro a b c hab hbc
  simp only [rankLe, decide_eq_true_eq] at *
  rcases hab with h | ⟨e, hk⟩ <;> rcases hbc with h' | ⟨e', hk'⟩
  · exact Or.inl (Nat.lt_trans h' h)
  · exact Or.inl (e' ▸ h)
  · exact Or.inl (e ▸ h')
  · exact Or.inr ⟨e.trans e', Nat.le_trans hk hk'⟩

theorem rankLe_total : ∀ a b : Nat × Nat, (rankLe a b || rankLe b a) = true := by
  intro a b
  simp only [rankLe, Bool.or_eq_true, decide_eq_true_eq]
  rcases Nat.lt_trichotomy a.2 b.2 with h | h | h
  · exact Or.inr (Or.inl h)
  · rcases Nat.le_total a.1 b.1 with hk | hk
    · exact Or.inl (Or.inr ⟨h, hk⟩)
    · exact Or.inr (Or.inr ⟨h.symm, hk⟩)
  · exact Or.inl (Or.inl h)

theorem rankCounts_perm (m : CountMap) : (rankCounts m).Perm m :=
  stableSort_perm rankLe m

theorem rankCounts_pairwise (m : CountMap) :
    (rankCounts m).Pairwise (fun a b => b.2 < a.2 ∨ (a.2 = b.2 ∧ a.1 ≤ b.1)) := by
  have := stableSort_pairwise rankLe_trans rankLe_total m
  exact this.imp (fun h => by simpa [rankLe, decide_eq_true_eq] using h)

theorem last5Le_trans : ∀ a b c : String × Nat,
    last5Le a b = true → last5Le b c = true → last5Le a c = true := by
  intro a b c hab hbc
  simp only [last5Le, decide_eq_true_eq] at *
  exact Nat.le_trans hbc hab

theorem last5Le_total : ∀ a b : String × Nat, (last5Le a b || last5Le b a) = true := by
  intro a b
  simp only [last5Le, Bool.or_eq_true, decide_eq_true_eq]
  exact Nat.le_total b.2 a.2

/-! ### Lemmas about the frequency fold -/

theorem keysInv_objInc {base : List Nat} {m : CountMap} (k : Nat)
    (h : KeysInv base m) : KeysInv base (objInc m k) :=
  ⟨pairwise_keysOf_objInc h.1, fun k' hk' => mem_keysOf_objInc_of_mem (h.2 k' hk')⟩

theorem incDigits_length : ∀ (pcs : List CountMap) (xs : List Nat),
    (incDigits pcs xs).length = pcs.length
  | pcs, [] => by cases pcs <;> rfl
  | [], _ :: _ => rfl
  | _ :: ps, _ :: xs => by simp [incDigits, incDigits_length ps xs]

theorem incDigits_get?_some : ∀ {pcs : List CountMap} {xs : List Nat} {i x : Nat},
    xs.get? i = some x →
      (incDigits pcs xs).get? i = (pcs.get? i).map (fun c => objInc c x)
  | pcs, [], i, x, h => by simp at h
  | [], _ :: _, i, x, h => by cases i <;> rfl
  | p :: ps, y :: xs, 0, x, h => by
    simp only [List.get?] at h
    cases h
    rfl
  | p :: ps, y :: xs, i + 1, x, h => by
    simpa [incDigits] using @incDigits_get?_some ps xs i x h

theorem incDigits_get?_none : ∀ {pcs : List CountMap} {xs : List Nat} {i : Nat},
    xs.get? i = none → (incDigits pcs xs).get? i = pcs.get? i
  | pcs, [], i, _ => by cases pcs <;> rfl
  | [], _ :: _, i, h => by cases i <;> rfl
  | p :: ps, y :: xs, 0, h => by simp at h
  | p :: ps, y :: xs, i + 1, h => by
    simpa [incDigits] using @incDigits_get?_none ps xs i (by simpa using h)

theorem keysInv_incDigits {base : List Nat} : ∀ {pcs : List CountMap} {xs : List Nat},
    (∀ c ∈ pcs, KeysInv base c) → ∀ c ∈ incDigits pcs xs, KeysInv base c
  | pcs, [], h => by
    intro c hc
    cases pcs <;> exact h c hc
  | [], _ :: _, _ => by intro c hc; simp [incDigits] at hc
  | p :: ps, x :: xs, h => by
    intro c hc
    rcases List.mem_cons.mp hc with e | hc'
    · exact e ▸ keysInv_objInc x (h p (List.mem_cons_self _ _))
    · exact keysInv_incDigits (fun c' hc' => h c' (List.mem_cons_of_mem _ hc')) c hc'

theorem stInv_init : StInv initFreqState := by
  refine ⟨⟨?_, ?_⟩, rfl, ?_, rfl, ?_⟩
  · decide
  · decide
  · intro c hc
    rcases List.eq_of_mem_replicate hc with rfl
    exact ⟨by decide, by decide⟩
  · intro c hc
    rcases List.eq_of_mem_replicate hc with rfl
    exact ⟨by decide, by decide⟩

theorem stInv_step {st : FreqState} (d : Draw) (h : StInv st) : StInv (stepDraw st d) := by
  obtain ⟨hg, hl, hp, hbl, hbp⟩ := h
  refine ⟨keysInv_objInc _ hg, ?_, keysInv_incDigits hp, ?_, ?_⟩
  · simpa [stepDraw, incDigits_length] using hl
  · cases hb : d.bonus <;> simp [stepDraw, hb, incDigits_length, hbl]
  · cases hb : d.bonus with
    | none => simpa [stepDraw, hb] using hbp
    | some b =>
      simpa [stepDraw, hb] using @keysInv_incDigits digitKeys st.bonusPosCounts b.digits hbp

theorem stInv_fold : ∀ (draws : List Draw) (st : FreqState),
    StInv st → StInv (draws.foldl stepDraw st)
  | [], st, h => h
  | d :: ds, st, h => stInv_fold ds (stepDraw st d) (stInv_step d h)

theorem fold_group_zero : ∀ (draws : List Draw) (st : FreqState) {g : Nat},
    lookupCount st.groupCounts g = some 0 →
    (∀ d ∈ draws, d.first.group ≠ g) →
    lookupCount (draws.foldl stepDraw st).groupCounts g = some 0
  | [], st, g, h0, _ => h0
  | d :: ds, st, g, h0, h => by
    refine fold_group_zero ds (stepDraw st d) ?_ (fun d' hd' => h d' (List.mem_cons_of_mem _ hd'))
    have hne : g ≠ d.first.group := fun e => h d (List.mem_cons_self _ _) e.symm
    simpa [stepDraw, lookupCount_objInc_ne hne] using h0

theorem fold_pos_zero : ∀ (draws : List Draw) (st : FreqState) {i dg : Nat},
    (∀ c, st.posCounts.get? i = some c → lookupCount c dg = some 0) →
    (∀ d ∈ draws, d.first.digits.get? i ≠ some dg) →
    ∀ c, (draws.foldl stepDraw st).posCounts.get? i = some c → lookupCount c dg = some 0
  | [], st, i, dg, h0, _ => h0
  | d :: ds, st, i, dg, h0, h => by
    refine fold_pos_zero ds (stepDraw st d) ?_ (fun d' hd' => h d' (List.mem_cons_of_mem _ hd'))
    intro c hc
    rcases hx : d.first.digits.get? i with _ | x
    · rw [show (stepDraw st d).posCounts = incDigits st.posCounts d.first.digits from rfl,
        incDigits_get?_none hx] at hc
      exact h0 c hc
    · rw [show (stepDraw st d).posCounts = incDigits st.posCounts d.first.digits from rfl,
        incDigits_get?_some hx] at hc
      rcases hc0 : st.posCounts.get? i with _ | c0
      · rw [hc0] at hc; simp at hc
      · rw [hc0] at hc
        simp only [Option.map_some'] at hc
        cases hc
        have hne : dg ≠ x := by
          intro e
          exact h d (List.mem_cons_self _ _) (e ▸ hx)
        rw [lookupCount_objInc_ne hne]
        exact h0 c0 hc0

theorem fold_bonus_zero : ∀ (draws : List Draw) (st : FreqState) {i dg : Nat},
    (∀ c, st.bonusPosCounts.get? i = some c → lookupCount c dg = some 0) →
    (∀ d ∈ draws, ∀ b, d.bonus = some b → b.digits.get? i ≠ some dg) →
    ∀ c, (draws.foldl stepDraw st).bonusPosCounts.get? i = some c → lookupCount c dg = some 0
  | [], st, i, dg, h0, _ => h0
  | d :: ds, st, i, dg, h0, h => by
    refine fold_bonus_zero ds (stepDraw st d) ?_
      (fun d' hd' => h d' (List.mem_cons_of_mem _ hd'))
    intro c hc
    rcases hb : d.bonus with _ | b
    · rw [show (stepDraw st d).bonusPosCounts = st.bonusPosCounts from by simp [stepDraw, hb]] at hc
      exact h0 c hc
    · rw [show (stepDraw st d).bonusPosCounts = incDigits st.bonusPosCounts b.digits from by
        simp [stepDraw, hb]] at hc
      rcases hx : b.digits.get? i with _ | x
      · rw [incDigits_get?_none hx] at hc
        exact h0 c hc
      · rw [incDigits_get?_some hx] at hc
        rcases hc0 : st.bonusPosCounts.get? i with _ | c0
        · rw [hc0] at hc; simp at hc
        · rw [hc0] at hc
          simp only [Option.map_some'] at hc
          cases hc
          have hne : dg ≠ x := by
            intro e
            exact h d (List.mem_cons_self _ _) b hb (e ▸ hx)
          rw [lookupCount_objInc_ne hne]
          exact h0 c0 hc0

theorem fold_group_keys_bound : ∀ (draws : List Draw) (st : FreqState),
    (∀ k ∈ keysOf st.groupCounts, 1 ≤ k ∧ k ≤ 5) →
    (∀ d ∈ draws, 1 ≤ d.first.group ∧ d.first.group ≤ 5) →
    ∀ k ∈ keysOf (draws.foldl stepDraw st).groupCounts, 1 ≤ k ∧ k ≤ 5
  | [], st, h0, _ => h0
  | d :: ds, st, h0, h => by
    refine fold_group_keys_bound ds (stepDraw st d) ?_
      (fun d' hd' => h d' (List.mem_cons_of_mem _ hd'))
    intro k hk
    rcases keysOf_objInc_subset hk with e | hk'
    · exact e ▸ h d (List.mem_cons_self _ _)
    · exact h0 k hk'

theorem fold_pos_keys_bound : ∀ (draws : List Draw) (st : FreqState) {i : Nat},
    (∀ c, st.posCounts.get? i = some c → ∀ k ∈ keysOf c, k ≤ 9) →
    (∀ d ∈ draws, ∀ x ∈ d.first.digits, x ≤ 9) →
    ∀ c, (draws.foldl stepDraw st).posCounts.get? i = some c → ∀ k ∈ keysOf c, k ≤ 9
  | [], st, i, h0, _ => h0
  | d :: ds, st, i, h0, h => by
    refine fold_pos_keys_bound ds (stepDraw st d) ?_
      (fun d' hd' => h d' (List.mem_cons_of_mem _ hd'))
    intro c hc
    rcases hx : d.first.digits.get? i with _ | x
    · rw [show (stepDraw st d).posCounts = incDigits st.posCounts d.first.digits from rfl,
        incDigits_get?_none hx] at hc
      exact h0 c hc
    · rw [show (stepDraw st d).posCounts = incDigits st.posCounts d.first.digits from rfl,
        incDigits_get?_some hx] at hc
      rcases hc0 : st.posCounts.get? i with _ | c0
      · rw [hc0] at hc; simp at hc
      · rw [hc0] at hc
        simp only [Option.map_some'] at hc
        cases hc
        intro k hk
        rcases keysOf_objInc_subset hk with e | hk'
        · exact e ▸ h d (List.mem_cons_self _ _) x (List.get?_mem hx)
        · exact h0 c0 hc0 k hk'

/-! ### Lemmas about the round-keyed merge map -/

theorem mapSet_keys (m : List (Nat × Draw)) (k : Nat) (v : Draw) :
    (mapSet m k v).map Prod.fst =
      if k ∈ m.map Prod.fst then m.map Prod.fst else m.map Prod.fst ++ [k] := by
  induction m with
  | nil => simp [mapSet]
  | cons hd tl ih =>
    obtain ⟨kh, vh⟩ := hd
    by_cases e : k = kh
    · subst e
      simp [mapSet]
    · simp only [mapSet, if_neg e, List.map_cons, ih, List.mem_cons]
      by_cases hm : k ∈ tl.map Prod.fst
      · simp [hm, e]
      · simp [hm, e]

theorem mapSet_keys_nodup {m : List (Nat × Draw)} {k : Nat} {v : Draw}
    (h : (m.map Prod.fst).Nodup) : ((mapSet m k v).map Prod.fst).Nodup := by
  rw [mapSet_keys]
  by_cases hm : k ∈ m.map Prod.fst
  · simpa [hm] using h
  · simp only [hm, if_neg, ite_false]
    exact h.append (List.nodup_singleton k) (by simpa using fun hk => hm hk)

theorem lookupRound_mapSet_self (m : List (Nat × Draw)) (k : Nat) (v : Draw) :
    lookupRound (mapSet m k v) k = some v := by
  induction m with
  | nil => simp [mapSet, lookupRound]
  | cons hd tl ih =>
    obtain ⟨kh, vh⟩ := hd
    by_cases e : k = kh
    · subst e
      simp [mapSet, lookupRound]
    · simp [mapSet, if_neg e, lookupRound, e, ih]

theorem lookupRound_mapSet_ne {m : List (Nat × Draw)} {k k' : Nat} {v : Draw}
    (h : k' ≠ k) : lookupRound (mapSet m k v) k' = lookupRound m k' := by
  induction m with
  | nil => simp [mapSet, lookupRound, h]
  | cons hd tl ih =>
    obtain ⟨kh, vh⟩ := hd
    by_cases e : k = kh
    · subst e
      simp [mapSet, lookupRound, h]
    · by_cases e' : k' = kh
      · simp [mapSet, if_neg e, lookupRound, e']
      · simp [mapSet, if_neg e, lookupRound, e', ih]

theorem roundKeyed_mapSet {m : List (Nat × Draw)} {k : Nat} {v : Draw}
    (h : RoundKeyed m) (hv : v.round = k) : RoundKeyed (mapSet m k v) := by
  induction m with
  | nil =>
    intro kv hkv
    simp only [mapSet, List.mem_singleton] at hkv
    simpa [hkv] using hv
  | cons hd tl ih =>
    obtain ⟨kh, vh⟩ := hd
    intro kv hkv
    by_cases e : k = kh
    · subst e
      simp only [mapSet, eq_self_iff_true, ite_true, List.mem_cons] at hkv
      rcases hkv with rfl | hkv
      · simpa using hv
      · exact h kv (List.mem_cons_of_mem _ hkv)
    · simp only [mapSet, if_neg e, List.mem_cons] at hkv
      rcases hkv with rfl | hkv
      · exact h _ (List.mem_cons_self _ _)
      · exact ih (fun kv' hkv' => h kv' (List.mem_cons_of_mem _ hkv')) kv hkv

theorem mapSet_mem_origin {m : List (Nat × Draw)} {k : Nat} {v : Draw} :
    ∀ kv ∈ mapSet m k v, kv ∈ m ∨ Prod.snd kv = v := by
  induction m with
  | nil =>
    intro kv hkv
    simp only [mapSet, List.mem_singleton] at hkv
    simp [hkv]
  | cons hd tl ih =>
    obtain ⟨kh, vh⟩ := hd
    intro kv hkv
    by_cases e : k = kh
    · subst e
      simp only [mapSet, eq_self_iff_true, ite_true, List.mem_cons] at hkv
      rcases hkv with rfl | hkv
      · simp
      · exact Or.inl (List.mem_cons_of_mem _ hkv)
    · simp only [mapSet, if_neg e, List.mem_cons] at hkv
      rcases hkv with rfl | hkv
      · exact Or.inl (List.mem_cons_self _ _)
      · rcases ih kv hkv with h | h
        · exact Or.inl (List.mem_cons_of_mem _ h)
        · exact Or.inr h

theorem lookupRound_mem {m : List (Nat × Draw)} {r : Nat} {v : Draw}
    (h : lookupRound m r = some v) : (r, v) ∈ m := by
  induction m with
  | nil => simp [lookupRound] at h
  | cons hd tl ih =>
    obtain ⟨kh, vh⟩ := hd
    by_cases e : r = kh
    · subst e
      simp only [lookupRound, eq_self_iff_true, ite_true, Option.some.injEq] at h
      subst h
      exact List.mem_cons_self _ _
    · simp only [lookupRound, if_neg e] at h
      exact List.mem_cons_of_mem _ (ih h)

theorem buildRoundMap_roundKeyed : ∀ (ds : List Draw) (m : List (Nat × Draw)),
    RoundKeyed m → RoundKeyed (buildRoundMap m ds)
  | [], m, h => h
  | d :: ds, m, h =>
    buildRoundMap_roundKeyed ds (mapSet m d.round d) (roundKeyed_mapSet h rfl)

theorem buildRoundMap_keys_nodup : ∀ (ds : List Draw) (m : List (Nat × Draw)),
    (m.map Prod.fst).Nodup → ((buildRoundMap m ds).map Prod.fst).Nodup
  | [], m, h => h
  | d :: ds, m, h => buildRoundMap_keys_nodup ds (mapSet m d.round d) (mapSet_keys_nodup h)

theorem buildRoundMap_lookup_notin : ∀ (ds : List Draw) (m : List (Nat × Draw)) {r : Nat},
    r ∉ ds.map Draw.round → lookupRound (buildRoundMap m ds) r = lookupRound m r
  | [], m, r, _ => rfl
  | d :: ds, m, r, h => by
    have h1 : r ∉ ds.map Draw.round := fun hr => h (List.mem_cons_of_mem _ hr)
    have h2 : r ≠ d.round := fun e => h (by simp [e])
    rw [show buildRoundMap m (d :: ds) = buildRoundMap (mapSet m d.round d) ds from rfl,
      buildRoundMap_lookup_notin ds _ h1, lookupRound_mapSet_ne h2]

theorem buildRoundMap_lookup_mem : ∀ (ds : List Draw) (m : List (Nat × Draw)) {d : Draw},
    d ∈ ds → (ds.map Draw.round).Nodup →
    lookupRound (buildRoundMap m ds) d.round = some d
  | [], m, d, hd, _ => by simp at hd
  | d' :: ds, m, d, hd, hn => by
    have hn' : (d'.round :: ds.map Draw.round).Nodup := by simpa using hn
    rcases List.mem_cons.mp hd with rfl | hd'
    · have hnin : d.round ∉ ds.map Draw.round := (List.nodup_cons.mp hn').1
      rw [show buildRoundMap m (d :: ds) = buildRoundMap (mapSet m d.round d) ds from rfl,
        buildRoundMap_lookup_notin ds _ hnin, lookupRound_mapSet_self]
    · exact buildRoundMap_lookup_mem ds _ hd' (List.nodup_cons.mp hn').2

theorem buildRoundMap_mem_origin : ∀ (ds : List Draw) (m : List (Nat × Draw)),
    ∀ kv ∈ buildRoundMap m ds, kv ∈ m ∨ Prod.snd kv ∈ ds
  | [], m, kv, hkv => Or.inl hkv
  | d :: ds, m, kv, hkv => by
    rcases buildRoundMap_mem_origin ds (mapSet m d.round d) kv hkv with h | h
    · rcases mapSet_mem_origin kv h with h' | h'
      · exact Or.inl h'
      · exact Or.inr (h' ▸ List.mem_cons_self _ _)
    · exact Or.inr (List.mem_cons_of_mem _ h)

theorem rounds_values_eq_keys {m : List (Nat × Draw)} (h : RoundKeyed m) :
    (m.map Prod.snd).map Draw.round = m.map Prod.fst := by
  induction m with
  | nil => rfl
  | cons hd tl ih =>
    simp only [List.map_cons, List.cons.injEq]
    exact ⟨h hd (List.mem_cons_self _ _), ih (fun kv hkv => h kv (List.mem_cons_of_mem _ hkv))⟩

theorem roundLeAsc_trans : ∀ a b c : Draw,
    roundLeAsc a b = true → roundLeAsc b c = true → roundLeAsc a c = true := by
  intro a b c hab hbc
  simp only [roundLeAsc, decide_eq_true_eq] at *
  exact Nat.le_trans hab hbc

theorem roundLeAsc_total : ∀ a b : Draw, (roundLeAsc a b || roundLeAsc b a) = true := by
  intro a b
  simp only [roundLeAsc, Bool.or_eq_true, decide_eq_true_eq]
  exact Nat.le_total a.round b.round

theorem roundLeDesc_trans : ∀ a b c : Draw,
    roundLeDesc a b = true → roundLeDesc b c = true → roundLeDesc a c = true := by
  intro a b c hab hbc
  simp only [roundLeDesc, decide_eq_true_eq] at *
  exact Nat.le_trans hbc hab

theorem roundLeDesc_total : ∀ a b : Draw, (roundLeDesc a b || roundLeDesc b a) = true := by
  intro a b
  simp only [roundLeDesc, Bool.or_eq_true, decide_eq_true_eq]
  exact Nat.le_total b.round a.round

/-! ### Lemmas about the scanners and the bonus association -/

theorem scanFirstAux_index_ge : ∀ (fuel : Nat) (cs : List Char) (pos : Nat),
    ∀ f ∈ scanFirstAux fuel cs pos, pos ≤ f.index
  | 0, _, _ => by intro f hf; simp [scanFirstAux] at hf
  | _ + 1, [], _ => by intro f hf; simp [scanFirstAux] at hf
  | fuel + 1, c :: rest, pos => by
    intro f hf
    rcases h : matchFirstAt (c :: rest) with _ | ⟨f', after⟩
    · simp only [scanFirstAux, h] at hf
      exact Nat.le_of_succ_le (scanFirstAux_index_ge fuel rest (pos + 1) f hf)
    · simp only [scanFirstAux, h, List.mem_cons] at hf
      rcases hf with rfl | hf
      · exact Nat.le_refl _
      · have := scanFirstAux_index_ge fuel _ _ f hf
        omega

theorem scanFirstAux_pairwise : ∀ (fuel : Nat) (cs : List Char) (pos : Nat),
    (scanFirstAux fuel cs pos).Pairwise (fun a b => a.index < b.index)
  | 0, _, _ => by simp [scanFirstAux]
  | _ + 1, [], _ => by simp [scanFirstAux]
  | fuel + 1, c :: rest, pos => by
    rcases h : matchFirstAt (c :: rest) with _ | ⟨f', after⟩
    · simpa only [scanFirstAux, h] using scanFirstAux_pairwise fuel rest (pos + 1)
    · simp only [scanFirstAux, h]
      refine List.pairwise_cons.mpr ⟨?_, scanFirstAux_pairwise fuel _ _⟩
      intro b hb
      have hge := scanFirstAux_index_ge fuel _ _ b hb
      have hstep : 1 ≤ max ((c :: rest).length - after.length) 1 := Nat.le_max_right _ _
      simp only
      omega

theorem scanFirst_pairwise (text : String) :
    (scanFirst text).Pairwise (fun a b => a.index < b.index) :=
  scanFirstAux_pairwise _ _ _

theorem scanBonusAux_index_ge : ∀ (fuel : Nat) (cs : List Char) (pos : Nat),
    ∀ b ∈ scanBonusAux fuel cs pos, pos ≤ b.index
  | 0, _, _ => by intro b hb; simp [scanBonusAux] at hb
  | _ + 1, [], _ => by intro b hb; simp [scanBonusAux] at hb
  | fuel + 1, c :: rest, pos => by
    intro b hb
    rcases h : matchBonusAt (c :: rest) with _ | ⟨b', after⟩
    · simp only [scanBonusAux, h] at hb
      exact Nat.le_of_succ_le (scanBonusAux_index_ge fuel rest (pos + 1) b hb)
    · simp only [scanBonusAux, h, List.mem_cons] at hb
      rcases hb with rfl | hb
      · exact Nat.le_refl _
      · have := scanBonusAux_index_ge fuel _ _ b hb
        omega

theorem scanBonusAux_pairwise : ∀ (fuel : Nat) (cs : List Char) (pos : Nat),
    (scanBonusAux fuel cs pos).Pairwise (fun a b => a.index < b.index)
  | 0, _, _ => by simp [scanBonusAux]
  | _ + 1, [], _ => by simp [scanBonusAux]
  | fuel + 1, c :: rest, pos => by
    rcases h : matchBonusAt (c :: rest) with _ | ⟨b', after⟩
    · simpa only [scanBonusAux, h] using scanBonusAux_pairwise fuel rest (pos + 1)
    · simp only [scanBonusAux, h]
      refine List.pairwise_cons.mpr ⟨?_, scanBonusAux_pairwise fuel _ _⟩
      intro b hb
      have hge := scanBonusAux_index_ge fuel _ _ b hb
      have hstep : 1 ≤ max ((c :: rest).length - after.length) 1 := Nat.le_max_right _ _
      simp only
      omega

theorem scanBonus_pairwise (text : String) :
    (scanBonus text).Pairwise (fun a b => a.index < b.index) :=
  scanBonusAux_pairwise _ _ _

theorem dropWhile_eq_cons_head {α : Type} {p : α → Bool} :
    ∀ {l : List α} {x : α} {xs : List α}, l.dropWhile p = x :: xs → p x = false := by
  intro l
  induction l with
  | nil => intro x xs h; simp [List.dropWhile] at h
  | cons a l ih =>
    intro x xs h
    by_cases hp : p a
    · rw [List.dropWhile_cons_of_pos hp] at h
      exact ih h
    · rw [List.dropWhile_cons_of_neg hp] at h
      cases h
      exact Bool.of_not_eq_true hp

theorem assocLoop_eq_zipWith : ∀ (fs : List FirstM) (bs : List BonusM),
    assocLoop fs bs = List.zipWith mkDraw fs (chosenB fs bs)
  | [], bs => rfl
  | f :: fs, bs => by
    rcases hbs : bs.dropWhile (fun x => x.index < f.index) with _ | ⟨cand, rest⟩
    · simp only [assocLoop, chosenB, hbs, List.zipWith]
      exact congrArg _ (assocLoop_eq_zipWith fs [])
    · by_cases hc : f.index + f.rawLen ≤ cand.index ∧ cand.index ≤ f.index + f.rawLen + 200
      · simp only [assocLoop, chosenB, hbs, if_pos hc, List.zipWith]
        exact congrArg _ (assocLoop_eq_zipWith fs rest)
      · simp only [assocLoop, chosenB, hbs, if_neg hc, List.zipWith]
        exact congrArg _ (assocLoop_eq_zipWith fs (cand :: rest))

theorem chosenB_length : ∀ (fs : List FirstM) (bs : List BonusM),
    (chosenB fs bs).length = fs.length
  | [], _ => rfl
  | f :: fs, bs => by
    rcases hbs : bs.dropWhile (fun x => x.index < f.index) with _ | ⟨cand, rest⟩
    · simp only [chosenB, hbs, List.length_cons, chosenB_length fs]
    · by_cases hc : f.index + f.rawLen ≤ cand.index ∧ cand.index ≤ f.index + f.rawLen + 200
      · simp only [chosenB, hbs, if_pos hc, List.length_cons, chosenB_length fs]
      · simp only [chosenB, hbs, if_neg hc, List.length_cons, chosenB_length fs]

theorem chosenB_attached : ∀ (fs : List FirstM) (bs : List BonusM) {i : Nat} {c : BonusM},
    (chosenB fs bs).get? i = some (some c) →
    ∃ f, fs.get? i = some f ∧ ¬ c.index < f.index ∧
      f.index + f.rawLen ≤ c.index ∧ c.index ≤ f.index + f.rawLen + 200 ∧ c ∈ bs
  | [], bs, i, c => by intro h; simp [chosenB] at h
  | f :: fs, bs, i, c => by
    intro h
    rcases hbs : bs.dropWhile (fun x => x.index < f.index) with _ | ⟨cand, rest⟩
    · rcases i with _ | i
      · simp [chosenB, hbs] at h
      · simp only [chosenB, hbs, List.get?] at h
        obtain ⟨f', hf', h1, h2, h3, h4⟩ := chosenB_attached fs [] h
        simp at h4
    · by_cases hc : f.index + f.rawLen ≤ cand.index ∧ cand.index ≤ f.index + f.rawLen + 200
      · rcases i with _ | i
        · simp only [chosenB, hbs, if_pos hc, List.get?, Option.some.injEq] at h
          subst h
          refine ⟨f, rfl, ?_, hc.1, hc.2, ?_⟩
          · simpa using dropWhile_eq_cons_head hbs
          · exact (List.dropWhile_sublist _).subset (hbs ▸ List.mem_cons_self _ _)
        · simp only [chosenB, hbs, if_pos hc, List.get?] at h
          obtain ⟨f', hf', h1, h2, h3, h4⟩ := chosenB_attached fs rest h
          refine ⟨f', hf', h1, h2, h3, ?_⟩
          exact (List.dropWhile_sublist _).subset
            (hbs ▸ List.mem_cons_of_mem _ h4)
      · rcases i with _ | i
        · simp [chosenB, hbs, if_neg hc] at h
        · simp only [chosenB, hbs, if_neg hc, List.get?] at h
          obtain ⟨f', hf', h1, h2, h3, h4⟩ := chosenB_attached fs (cand :: rest) h
          refine ⟨f', hf', h1, h2, h3, ?_⟩
          exact (List.dropWhile_sublist _).subset (hbs ▸ h4)

theorem chosenB_none_get? : ∀ (fs : List FirstM) (bs : List BonusM) {i : Nat},
    (chosenB fs bs).get? i = some none → ∃ f, fs.get? i = some f := by
  intro fs bs i h
  have hlt : i < (chosenB fs bs).length := by
    by_contra hge
    rw [List.get?_eq_none.mpr (Nat.le_of_not_lt hge)] at h
    exact Option.noConfusion h
  rw [chosenB_length] at hlt
  rcases List.get?_eq_some.mpr ⟨hlt, rfl⟩ with _
  exact ⟨fs.get ⟨i, hlt⟩, List.get?_eq_some.mpr ⟨hlt, rfl⟩⟩

theorem chosenB_filterMap_sublist : ∀ (fs : List FirstM) (bs : List BonusM),
    ((chosenB fs bs).filterMap id).Sublist bs
  | [], bs => by simp [chosenB]
  | f :: fs, bs => by
    rcases hbs : bs.dropWhile (fun x => x.index < f.index) with _ | ⟨cand, rest⟩
    · simp only [chosenB, hbs, List.filterMap_cons_none]
      have := chosenB_filterMap_sublist fs []
      simp only [List.sublist_nil] at this
      simp [this]
    · by_cases hc : f.index + f.rawLen ≤ cand.index ∧ cand.index ≤ f.index + f.rawLen + 200
      · simp only [chosenB, hbs, if_pos hc, List.filterMap_cons, id]
        have h1 : (cand :: (chosenB fs rest).filterMap id).Sublist (cand :: rest) :=
          (chosenB_filterMap_sublist fs rest).cons₂ cand
        exact h1.trans (hbs ▸ List.dropWhile_sublist _)
      · simp only [chosenB, hbs, if_neg hc, List.filterMap_cons_none]
        exact (chosenB_filterMap_sublist fs (cand :: rest)).trans
          (hbs ▸ List.dropWhile_sublist _)

/-! ### Lemmas about the generator and the final key sets -/

theorem jsGet_bounds {α : Type} {l : List α} {i : Int}
    (h0 : 0 ≤ i) (hl : i < (l.length : Int)) :
    ∃ x, jsGet l i = some x ∧ x ∈ l := by
  have hi : i.toNat < l.length := by omega
  refine ⟨l.get ⟨i.toNat, hi⟩, ?_, List.get_mem _ _ _⟩
  simp [jsGet, h0, List.get?_eq_get hi]

theorem pickIndex_bounds (tier : String) (pos : Nat) {idx : Int} {len : Nat}
    (hidx : 0 ≤ idx) (hlen : 1 ≤ len) :
    0 ≤ pickIndex tier pos idx len ∧ pickIndex tier pos idx len < (len : Int) := by
  unfold pickIndex
  by_cases h1 : len ≤ 1
  · have he : len = 1 := Nat.le_antisymm h1 hlen
    subst he
    simp
  · simp only [h1, if_false]
    have harg : (0 : Int) ≤ idx + ((pos * 2 + (if 4 ≤ pos then 0 else 1) : Nat) : Int) := by
      have : (0 : Int) ≤ ((pos * 2 + (if 4 ≤ pos then 0 else 1) : Nat) : Int) := Int.natCast_nonneg _
      omega
    have hspanpos : 0 < (if tier = "top" then min 1 len
        else if tier = "topmix" then min 3 len
        else if tier = "mix" then min 6 len else len) := by
      split_ifs <;> omega
    have hspanle : (if tier = "top" then min 1 len
        else if tier = "topmix" then min 3 len
        else if tier = "mix" then min 6 len else len) ≤ len := by
      split_ifs <;> first | exact Nat.min_le_right _ _ | exact Nat.le_refl _
    constructor
    · exact Int.tmod_nonneg _ harg
    · have hlt := Int.tmod_lt_of_pos
        (idx + ((pos * 2 + (if 4 ≤ pos then 0 else 1) : Nat) : Int))
        (b := ((if tier = "top" then min 1 len
          else if tier = "topmix" then min 3 len
          else if tier = "mix" then min 6 len else len : Nat) : Int))
        (by exact_mod_cast hspanpos)
      calc _ < _ := hlt
        _ ≤ (len : Int) := by exact_mod_cast hspanle

theorem mem_digitKeys {k : Nat} : k ∈ digitKeys ↔ k ≤ 9 := by
  simp only [digitKeys, List.mem_cons, List.mem_singleton, List.not_mem_nil, or_false]
  omega

theorem mem_groupKeys {k : Nat} : k ∈ ([1, 2, 3, 4, 5] : List Nat) ↔ 1 ≤ k ∧ k ≤ 5 := by
  simp only [List.mem_cons, List.mem_singleton, List.not_mem_nil, or_false]
  omega

theorem final_group_keys (draws : List Draw)
    (h : ∀ d ∈ draws, 1 ≤ d.first.group ∧ d.first.group ≤ 5) :
    keysOf (draws.foldl stepDraw initFreqState).groupCounts = [1, 2, 3, 4, 5] := by
  have hinv := stInv_fold draws initFreqState stInv_init
  have hbound := fold_group_keys_bound draws initFreqState (by decide) h
  exact sorted_lt_eq_of_mem_iff hinv.1.1 (by decide)
    (fun x => ⟨fun hx => mem_groupKeys.mpr (hbound x hx), fun hx => hinv.1.2 x hx⟩)

theorem final_pos_keys (draws : List Draw)
    (h : ∀ d ∈ draws, ∀ x ∈ d.first.digits, x ≤ 9) {i : Nat} {c : CountMap}
    (hc : (draws.foldl stepDraw initFreqState).posCounts.get? i = some c) :
    keysOf c = digitKeys := by
  have hinv := stInv_fold draws initFreqState stInv_init
  have hKI := hinv.2.2.1 c (List.get?_mem hc)
  have hbound := fold_pos_keys_bound draws initFreqState
    (fun c' hc' => by
      have := List.eq_of_mem_replicate (List.get?_mem hc')
      subst this
      decide) h c hc
  exact sorted_lt_eq_of_mem_iff hKI.1 (by decide)
    (fun x => ⟨fun hx => mem_digitKeys.mpr (hbound x hx), fun hx => hKI.2 x hx⟩)

theorem rankCounts_keys_perm (m : CountMap) :
    ((rankCounts m).map Prod.fst).Perm (keysOf m) :=
  (rankCounts_perm m).map Prod.fst

theorem buildFreq_groupRanked (draws : List Draw) :
    (buildFreq draws).groupRanked =
      rankCounts ((draws.foldl stepDraw initFreqState).groupCounts) := rfl

theorem buildFreq_roundsCount (draws : List Draw) :
    (buildFreq draws).roundsCount = draws.length := rfl

theorem buildFreq_positions (draws : List Draw) :
    (buildFreq draws).positions =
      List.zipWith (fun nm c => PosFreq.mk nm c (rankCounts c)) POS_NAMES
        ((draws.foldl stepDraw initFreqState).posCounts) := rfl

theorem buildFreq_bonusPositions (draws : List Draw) :
    (buildFreq draws).bonusPositions =
      List.zipWith (fun nm c => PosFreq.mk nm c (rankCounts c)) POS_NAMES
        ((draws.foldl stepDraw initFreqState).bonusPosCounts) := rfl

theorem buildFreq_last5Top (draws : List Draw) :
    (buildFreq draws).last5Top =
      (stableSort last5Le ((draws.foldl stepDraw initFreqState).last5Map)).take 20 := rfl

/-! ### Claim theorems -/

/-- C3: on the input text
`"303회 2026.02.19 1등 4 6 3 9 5 6 6 1 보너스 각조 6 1 9 1 3 6 10"` the
extractor yields exactly one record with round 303, date 2026-02-19, primary
group 4, primary digits `[6,3,9,5,6,6]`, primary winner count 1, bonus digits
`[6,1,9,1,3,6]` and bonus winner count 10. -/
theorem scenario_303_extraction :
    fetchDrawsFromPrimary "303회 2026.02.19 1등 4 6 3 9 5 6 6 1 보너스 각조 6 1 9 1 3 6 10" =
      Except.ok [⟨303, some "2026-02-19", ⟨4, [6, 3, 9, 5, 6, 6], 1⟩,
        some ⟨[6, 1, 9, 1, 3, 6], 10⟩⟩] := by
  rfl

/-- C4: the recommendation generator is a pure function of the frequency
table, the requested count and the cycle value — two calls with identical
inputs produce identical ticket lists; no nondeterministic random source is
consulted. -/
theorem generator_deterministic (f1 f2 : Freq) (n1 n2 : Nat) (c1 c2 : Int)
    (hf : f1 = f2) (hn : n1 = n2) (hc : c1 = c2) :
    recommendFromFreq f1 n1 c1 = recommendFromFreq f2 n2 c2 := by
  rw [hf, hn, hc]

/-- Witness for C4 at a concrete table, count and cycle. -/
theorem generator_deterministic_witness :
    recommendFromFreq (buildFreq [demoDraw]) 5 7 =
      recommendFromFreq (buildFreq [demoDraw]) 5 7 :=
  generator_deterministic (buildFreq [demoDraw]) (buildFreq [demoDraw]) 5 5 7 7 rfl rfl rfl

/-- C6 (amended): the middle revision's generator rejects a zero-round table
with the designated "no data to recommend from" error and produces no
tickets. -/
theorem generator_empty_rejection (freq : Freq) (n : Nat) (cycle : Int)
    (h : freq.roundsCount = 0) :
    recommendFromFreq freq n cycle = Except.error noDataMsg := by
  simp [recommendFromFreq, h]

/-- Witness for C6 on the frequency table built from the empty history. -/
theorem generator_empty_rejection_witness :
    recommendFromFreq (buildFreq []) 5 7 = Except.error noDataMsg :=
  generator_empty_rejection (buildFreq []) 5 7 rfl

/-- C6 counterexample: the first revision's generator (`recommendFromFreq` at
lines 262–288, which has no zero-round guard) emits a ticket from the
zero-round table built from the empty history instead of failing. -/
theorem generatorV1_empty_table_emits :
    (buildFreqV1 []).rounds = 0 ∧
    recommendFromFreqV1 (buildFreqV1 []) 1 0 =
      [⟨some 1, [some 0, some 0, some 0, some 0, some 0, some 0]⟩] := by
  exact ⟨rfl, by rfl⟩

/-- C7: when the primary pattern matches nowhere in the text, the extraction
fails with the extraction-empty error (it does not return an empty sequence),
and the persisted history file keeps its previous contents. -/
theorem zero_matches_extraction_fails (persisted : List Draw) (text : String)
    (h : scanFirst text = []) :
    fetchDrawsFromPrimary text = Except.error parseFailMsg ∧
    storedDraws persisted text = persisted := by
  have hf : fetchDrawsFromPrimary text = Except.error parseFailMsg := by
    simp [fetchDrawsFromPrimary, h]
  exact ⟨hf, by simp [storedDraws, hf]⟩

/-- Witness for C7 on a concrete matchless text and a concrete persisted
history. -/
theorem zero_matches_extraction_fails_witness :
    fetchDrawsFromPrimary "공지 2026.02.19 안내" = Except.error parseFailMsg ∧
    storedDraws [demoDraw] "공지 2026.02.19 안내" = [demoDraw] :=
  zero_matches_extraction_fails [demoDraw] "공지 2026.02.19 안내" (by rfl)

/-- C8: the extractor stores `ymdDotToIso` of the matched date token as the
record's date, so a token that fails to parse yields `date = none` while the
record is still created (one record per primary match, none dropped), and an
extraction with at least one primary match never fails.  (The primary regex in
fact only captures tokens of shape `\d{4}.\d{2}.\d{2}`, which always parse;
this theorem shows that even an arbitrary failing token would not drop the
record.) -/
theorem date_failure_keeps_record (fs : List FirstM) (bs : List BonusM)
    {i : Nat} {f : FirstM} (h : fs.get? i = some f) :
    ((assocLoop fs bs).length = fs.length ∧
      ∃ d, (assocLoop fs bs).get? i = some d ∧ d.date = ymdDotToIso f.dateDot ∧
        d.round = f.round ∧
        d.first = ⟨f.group, f.digits, f.winners⟩) ∧
    (∀ text : String, scanFirst text ≠ [] →
      ∃ ds, fetchDrawsFromPrimary text = Except.ok ds) := by
  constructor
  · have hz := assocLoop_eq_zipWith fs bs
    have hlen : (assocLoop fs bs).length = fs.length := by
      rw [hz, List.length_zipWith, chosenB_length]
      exact Nat.min_self _
    refine ⟨hlen, ?_⟩
    have hlt : i < fs.length := (List.get?_eq_some.mp h).1
    have hlt' : i < (chosenB fs bs).length := by rw [chosenB_length]; exact hlt
    have ho : (chosenB fs bs).get? i = some ((chosenB fs bs).get ⟨i, hlt'⟩) :=
      List.get?_eq_some.mpr ⟨hlt', rfl⟩
    refine ⟨mkDraw f ((chosenB fs bs).get ⟨i, hlt'⟩), ?_, rfl, rfl, rfl⟩
    rw [hz, List.get?_zipWith, h, ho]
  · intro text hne
    simp only [fetchDrawsFromPrimary]
    rw [if_neg (by simpa [List.isEmpty_iff] using hne)]
    exact ⟨_, rfl⟩

/-- Witness for C8: a primary match whose date token `"2026/02/19"` fails to
parse still produces its record, with `date = none`. -/
theorem date_failure_keeps_record_witness :
    ymdDotToIso "2026/02/19" = none ∧
    ((assocLoop [badDateFirst] []).length = 1 ∧
      ∃ d, (assocLoop [badDateFirst] []).get? 0 = some d ∧
        d.date = ymdDotToIso "2026/02/19" ∧ d.round = 7 ∧
        d.first = ⟨3, [1, 2, 3, 4, 5, 6], 2⟩) := by
  refine ⟨rfl, ?_⟩
  exact (@date_failure_keeps_record [badDateFirst] [] 0 badDateFirst rfl).1

/-- C10 (amended): every fixed-domain ranking (`rankCounts`, used for the
group, the six primary positions, the six bonus positions and the overall
tallies) is a permutation of its count object ordered by descending count with
ties broken by ascending numeric key, and this is reproducible (the ranking is
a pure function of the counts); the suffix top-20, however, is sorted by
descending count only — ties keep first-occurrence (insertion) order, not
ascending key order. -/
theorem ranking_order :
    (∀ m : CountMap,
      (rankCounts m).Perm m ∧
      (rankCounts m).Pairwise (fun a b => b.2 < a.2 ∨ (a.2 = b.2 ∧ a.1 ≤ b.1))) ∧
    (∀ draws : List Draw,
      ((buildFreq draws).last5Top).Pairwise (fun a b => b.2 ≤ a.2)) := by
  constructor
  · exact fun m => ⟨rankCounts_perm m, rankCounts_pairwise m⟩
  · intro draws
    rw [buildFreq_last5Top]
    have hs := stableSort_pairwise last5Le_trans last5Le_total
      ((draws.foldl stepDraw initFreqState).last5Map)
    have ht := List.Pairwise.sublist (List.take_sublist 20 _) hs
    exact ht.imp (fun h => by simpa [last5Le, decide_eq_true_eq] using h)

/-- C10 counterexample: the suffix top-20 does not use the ascending-key
tie-break — with suffixes `"99999"` (first occurrence) and `"00000"` tied at
one occurrence each, the emitted order is `["99999", "00000"]`, not the
ascending `["00000", "99999"]`. -/
theorem last5_tiebreak_violation :
    (buildFreq [cxDrawA, cxDrawB]).last5Top = [("99999", 1), ("00000", 1)] ∧
    ¬ SuffixRankOrdered (buildFreq [cxDrawA, cxDrawB]).last5Top := by
  constructor
  · rfl
  · intro h
    rw [SuffixRankOrdered, show (buildFreq [cxDrawA, cxDrawB]).last5Top =
      [("99999", 1), ("00000", 1)] from rfl] at h
    have := (List.pairwise_cons.mp h).1 ("00000", 1) (List.mem_singleton_self _)
    rcases this with h' | ⟨_, h'⟩
    · exact absurd h' (by decide)
    · exact absurd h' (by decide)

/-- C1 (amended): both merge implementations are keyed by round only — every
fresh record is in the merged result, a persisted record whose round is absent
from the fresh set is retained unchanged, no two merged records share a round,
and every merged record comes from the persisted or the fresh set; the middle
revision's merge emits the union sorted ascending by round while the third
revision's merge emits it sorted descending by round. -/
theorem merge_round_keyed (p f : List Draw)
    (hp : (p.map Draw.round).Nodup) (hf : (f.map Draw.round).Nodup) :
    (∀ d ∈ f, d ∈ mergeDraws p f ∧ d ∈ mergeDrawsV3 p f) ∧
    (∀ d ∈ p, d.round ∉ f.map Draw.round → d ∈ mergeDraws p f ∧ d ∈ mergeDrawsV3 p f) ∧
    ((mergeDraws p f).map Draw.round).Nodup ∧
    ((mergeDrawsV3 p f).map Draw.round).Nodup ∧
    (∀ d ∈ mergeDraws p f, d ∈ p ∨ d ∈ f) ∧
    ((mergeDraws p f).map Draw.round).Pairwise (· ≤ ·) ∧
    ((mergeDrawsV3 p f).map Draw.round).Pairwise (fun a b => b ≤ a) := by
  have hRK : RoundKeyed (buildRoundMap (buildRoundMap [] p) f) :=
    buildRoundMap_roundKeyed f _ (buildRoundMap_roundKeyed p [] (fun kv hkv => by simp at hkv))
  have hKN : ((buildRoundMap (buildRoundMap [] p) f).map Prod.fst).Nodup :=
    buildRoundMap_keys_nodup f _ (buildRoundMap_keys_nodup p [] (by simp))
  have hpermA : (mergeDraws p f).Perm ((buildRoundMap (buildRoundMap [] p) f).map Prod.snd) :=
    stableSort_perm _ _
  have hpermD : (mergeDrawsV3 p f).Perm ((buildRoundMap (buildRoundMap [] p) f).map Prod.snd) :=
    stableSort_perm _ _
  have hmemM : ∀ d : Draw,
      lookupRound (buildRoundMap (buildRoundMap [] p) f) d.round = some d →
      d ∈ (buildRoundMap (buildRoundMap [] p) f).map Prod.snd := by
    intro d hd
    exact List.mem_map.mpr ⟨(d.round, d), lookupRound_mem hd, rfl⟩
  refine ⟨?_, ?_, ?_, ?_, ?_, ?_, ?_⟩
  · intro d hd
    have hl : lookupRound (buildRoundMap (buildRoundMap [] p) f) d.round = some d :=
      buildRoundMap_lookup_mem f _ hd hf
    exact ⟨hpermA.mem_iff.mpr (hmemM d hl), hpermD.mem_iff.mpr (hmemM d hl)⟩
  · intro d hd hnin
    have hl0 : lookupRound (buildRoundMap [] p) d.round = some d :=
      buildRoundMap_lookup_mem p [] hd hp
    have hl : lookupRound (buildRoundMap (buildRoundMap [] p) f) d.round = some d := by
      rw [buildRoundMap_lookup_notin f _ hnin]
      exact hl0
    exact ⟨hpermA.mem_iff.mpr (hmemM d hl), hpermD.mem_iff.mpr (hmemM d hl)⟩
  · have : (((buildRoundMap (buildRoundMap [] p) f).map Prod.snd).map Draw.round).Nodup := by
      rw [rounds_values_eq_keys hRK]
      exact hKN
    exact ((hpermA.map Draw.round).nodup_iff).mpr this
  · have : (((buildRoundMap (buildRoundMap [] p) f).map Prod.snd).map Draw.round).Nodup := by
      rw [rounds_values_eq_keys hRK]
      exact hKN
    exact ((hpermD.map Draw.round).nodup_iff).mpr this
  · intro d hd
    have hd' : d ∈ (buildRoundMap (buildRoundMap [] p) f).map Prod.snd :=
      hpermA.mem_iff.mp hd
    obtain ⟨kv, hkv, hkvd⟩ := List.mem_map.mp hd'
    rcases buildRoundMap_mem_origin f _ kv hkv with h1 | h1
    · rcases buildRoundMap_mem_origin p [] kv h1 with h2 | h2
      · simp at h2
      · exact Or.inl (hkvd ▸ h2)
    · exact Or.inr (hkvd ▸ h1)
  · have hs := stableSort_pairwise roundLeAsc_trans roundLeAsc_total
      ((buildRoundMap (buildRoundMap [] p) f).map Prod.snd)
    rw [List.pairwise_map]
    exact hs.imp (fun h => by simpa [roundLeAsc, decide_eq_true_eq] using h)
  · have hs := stableSort_pairwise roundLeDesc_trans roundLeDesc_total
      ((buildRoundMap (buildRoundMap [] p) f).map Prod.snd)
    rw [List.pairwise_map]
    exact hs.imp (fun h => by simpa [roundLeDesc, decide_eq_true_eq] using h)

/-- Witness for C1 on concrete persisted and fresh sets. -/
theorem merge_round_keyed_witness :
    cxDrawB ∈ mergeDraws [cxDrawA] [cxDrawB] ∧
    cxDrawA ∈ mergeDraws [cxDrawA] [cxDrawB] ∧
    ((mergeDraws [cxDrawA] [cxDrawB]).map Draw.round).Pairwise (· ≤ ·) := by
  have h := merge_round_keyed [cxDrawA] [cxDrawB] (by decide) (by decide)
  exact ⟨(h.1 cxDrawB (List.mem_singleton_self _)).1,
    (h.2.1 cxDrawA (List.mem_singleton_self _) (by decide)).1,
    h.2.2.2.2.2.1⟩

/-- C1 counterexample: the third revision's merge (lines 1134–1140) sorts the
merged union descending by round — merging persisted round 1 with fresh round
2 yields rounds `[2, 1]`, which is not ascending. -/
theorem merge_v3_not_ascending :
    (mergeDrawsV3 [cxDrawA] [cxDrawB]).map Draw.round = [2, 1] ∧
    ¬ ((mergeDrawsV3 [cxDrawA] [cxDrawB]).map Draw.round).Pairwise (· ≤ ·) := by
  exact ⟨rfl, by decide⟩

/-- C2: for every normalized input text, the extractor's records arise from
the primary matches in textual order, each paired with the bonus selection of
the two-pointer scan; an attached bonus match starts at or after the current
primary match's start (the monotone cursor is advanced past every earlier
one), is attached only when the gap from the primary match's end is
non-negative and at most 200 characters, and the attached bonus matches form a
sublist of the bonus-match list with strictly increasing start positions, so
no bonus match is attached to two primary records. -/
theorem bonus_association_two_pointer (text : String) :
    assocLoop (scanFirst text) (scanBonus text) =
      List.zipWith mkDraw (scanFirst text) (chosenB (scanFirst text) (scanBonus text)) ∧
    (chosenB (scanFirst text) (scanBonus text)).length = (scanFirst text).length ∧
    (∀ i c, (chosenB (scanFirst text) (scanBonus text)).get? i = some (some c) →
      ∃ f, (scanFirst text).get? i = some f ∧ f.index ≤ c.index ∧
        f.index + f.rawLen ≤ c.index ∧ c.index ≤ f.index + f.rawLen + 200 ∧
        c ∈ scanBonus text) ∧
    ((chosenB (scanFirst text) (scanBonus text)).filterMap id).Sublist (scanBonus text) ∧
    ((chosenB (scanFirst text) (scanBonus text)).filterMap id).Pairwise
      (fun a b => a.index < b.index) := by
  refine ⟨assocLoop_eq_zipWith _ _, chosenB_length _ _, ?_, chosenB_filterMap_sublist _ _, ?_⟩
  · intro i c hc
    obtain ⟨f, hf, h1, h2, h3, h4⟩ := chosenB_attached (scanFirst text) (scanBonus text) hc
    exact ⟨f, hf, Nat.le_of_not_lt h1, h2, h3, h4⟩
  · exact List.Pairwise.sublist (chosenB_filterMap_sublist _ _) (scanBonus_pairwise text)

/-- Witness for C2 on the round-303 scenario text: the scan finds one primary
match and attaches the bonus match at index 35 within the distance bound. -/
theorem bonus_association_two_pointer_witness :
    ∃ f, (scanFirst "303회 2026.02.19 1등 4 6 3 9 5 6 6 1 보너스 각조 6 1 9 1 3 6 10").get? 0 =
        some f ∧
      f.index ≤ 35 ∧ f.index + f.rawLen ≤ 35 ∧ 35 ≤ f.index + f.rawLen + 200 ∧
      (⟨35, [6, 1, 9, 1, 3, 6], 10, 21⟩ : BonusM) ∈
        scanBonus "303회 2026.02.19 1등 4 6 3 9 5 6 6 1 보너스 각조 6 1 9 1 3 6 10" := by
  have h := (bonus_association_two_pointer
    "303회 2026.02.19 1등 4 6 3 9 5 6 6 1 보너스 각조 6 1 9 1 3 6 10").2.2.1 0
    ⟨35, [6, 1, 9, 1, 3, 6], 10, 21⟩ (by rfl)
  obtain ⟨f, hf, h1, h2, h3, h4⟩ := h
  exact ⟨f, hf, h1, h2, h3, h4⟩

/-- C9: for every draw history of well-formed records (including the empty
history), the frequency table has six primary and six bonus position entries,
the group ranking contains every group 1–5 exactly once, each position ranking
contains every digit 0–9 exactly once, and a key that is never observed is
present with count zero. -/
theorem frequency_completeness (draws : List Draw)
    (hlen : ∀ d ∈ draws, d.first.digits.length = 6 ∧
      ∀ b, d.bonus = some b → b.digits.length = 6) :
    ((buildFreq draws).positions.length = 6 ∧ (buildFreq draws).bonusPositions.length = 6) ∧
    (∀ g, 1 ≤ g → g ≤ 5 →
      ((buildFreq draws).groupRanked.map Prod.fst).count g = 1 ∧
      ((∀ d ∈ draws, d.first.group ≠ g) → (g, 0) ∈ (buildFreq draws).groupRanked)) ∧
    (∀ i pf, (buildFreq draws).positions.get? i = some pf → ∀ dg, dg ≤ 9 →
      (pf.ranked.map Prod.fst).count dg = 1 ∧
      ((∀ d ∈ draws, d.first.digits.get? i ≠ some dg) → (dg, 0) ∈ pf.ranked)) ∧
    (∀ i pf, (buildFreq draws).bonusPositions.get? i = some pf → ∀ dg, dg ≤ 9 →
      (pf.ranked.map Prod.fst).count dg = 1 ∧
      ((∀ d ∈ draws, ∀ b, d.bonus = some b → b.digits.get? i ≠ some dg) →
        (dg, 0) ∈ pf.ranked)) := by
  obtain ⟨hg, hplen, hpinv, hblen, hbinv⟩ := stInv_fold draws initFreqState stInv_init
  refine ⟨⟨?_, ?_⟩, ?_, ?_, ?_⟩
  · rw [buildFreq_positions, List.length_zipWith, hplen]
    rfl
  · rw [buildFreq_bonusPositions, List.length_zipWith, hblen]
    rfl
  · intro g hg1 hg5
    constructor
    · rw [buildFreq_groupRanked, (rankCounts_keys_perm _).count_eq]
      have hnd : (keysOf ((draws.foldl stepDraw initFreqState).groupCounts)).Nodup :=
        hg.1.imp (fun h => Nat.ne_of_lt h)
      exact List.count_eq_one_of_mem hnd (hg.2 g (mem_groupKeys.mpr ⟨hg1, hg5⟩))
    · intro hunobs
      have h0 : lookupCount ((draws.foldl stepDraw initFreqState).groupCounts) g = some 0 := by
        refine fold_group_zero draws initFreqState ?_ hunobs
        interval_cases g <;> rfl
      rw [buildFreq_groupRanked]
      exact (rankCounts_perm _).mem_iff.mpr (mem_of_lookupCount h0)
  · intro i pf hpf dg hdg
    rw [buildFreq_positions, List.get?_zipWith] at hpf
    rcases hnm : POS_NAMES.get? i with _ | nm <;> rw [hnm] at hpf
    · simp at hpf
    rcases hc : (draws.foldl stepDraw initFreqState).posCounts.get? i with _ | c <;>
      rw [hc] at hpf
    · simp at hpf
    simp only [Option.some.injEq] at hpf
    subst hpf
    have hKI := hpinv c (List.get?_mem hc)
    constructor
    · rw [show (PosFreq.mk nm c (rankCounts c)).ranked = rankCounts c from rfl,
        (rankCounts_keys_perm _).count_eq]
      have hnd : (keysOf c).Nodup := hKI.1.imp (fun h => Nat.ne_of_lt h)
      exact List.count_eq_one_of_mem hnd (hKI.2 dg (mem_digitKeys.mpr hdg))
    · intro hunobs
      have h0 : lookupCount c dg = some 0 := by
        refine fold_pos_zero draws initFreqState ?_ hunobs c hc
        intro c' hc'
        have he := List.eq_of_mem_replicate (List.get?_mem hc')
        subst he
        interval_cases dg <;> rfl
      exact (rankCounts_perm _).mem_iff.mpr (mem_of_lookupCount h0)
  · intro i pf hpf dg hdg
    rw [buildFreq_bonusPositions, List.get?_zipWith] at hpf
    rcases hnm : POS_NAMES.get? i with _ | nm <;> rw [hnm] at hpf
    · simp at hpf
    rcases hc : (draws.foldl stepDraw initFreqState).bonusPosCounts.get? i with _ | c <;>
      rw [hc] at hpf
    · simp at hpf
    simp only [Option.some.injEq] at hpf
    subst hpf
    have hKI := hbinv c (List.get?_mem hc)
    constructor
    · rw [show (PosFreq.mk nm c (rankCounts c)).ranked = rankCounts c from rfl,
        (rankCounts_keys_perm _).count_eq]
      have hnd : (keysOf c).Nodup := hKI.1.imp (fun h => Nat.ne_of_lt h)
      exact List.count_eq_one_of_mem hnd (hKI.2 dg (mem_digitKeys.mpr hdg))
    · intro hunobs
      have h0 : lookupCount c dg = some 0 := by
        refine fold_bonus_zero draws initFreqState ?_ hunobs c hc
        intro c' hc'
        have he := List.eq_of_mem_replicate (List.get?_mem hc')
        subst he
        interval_cases dg <;> rfl
      exact (rankCounts_perm _).mem_iff.mpr (mem_of_lookupCount h0)

/-- Witness for C9 on the one-record history: group 2 was never observed, yet
it appears exactly once in the group ranking, at count zero. -/
theorem frequency_completeness_witness :
    ((buildFreq [demoDraw]).groupRanked.map Prod.fst).count 2 = 1 ∧
    (2, 0) ∈ (buildFreq [demoDraw]).groupRanked := by
  have h := (frequency_completeness [demoDraw] (by decide)).2.1 2 (by decide) (by decide)
  exact ⟨h.1, h.2 (by decide)⟩

/-- C5 (amended): for every frequency table built from a non-empty history of
well-formed records and every non-negative cycle, the generator succeeds and
every ticket has its six digits in [0, 9] and its group in [1, 5]; tickets
carry no alternate-groups field — the four alternate groups (exactly 4
entries, none equal to the winning group) are instead the `second.groups`
field computed for each extracted draw record in the third revision. -/
theorem generator_bounds (draws : List Draw) (n : Nat) (cycle : Int)
    (hne : draws ≠ [])
    (hval : ∀ d ∈ draws, (1 ≤ d.first.group ∧ d.first.group ≤ 5) ∧
      ∀ x ∈ d.first.digits, x ≤ 9)
    (hcyc : 0 ≤ cycle) :
    (∃ ts, recommendFromFreq (buildFreq draws) n cycle = Except.ok ts ∧
      ts.length = n ∧
      ∀ t ∈ ts, (∃ g, t.group = some g ∧ 1 ≤ g ∧ g ≤ 5) ∧
        t.digits.length = 6 ∧
        ∀ o ∈ t.digits, ∃ v, o = some v ∧ v ≤ 9) ∧
    (∀ g, 1 ≤ g → g ≤ 5 → (secondGroups g).length = 4 ∧ g ∉ secondGroups g) := by
  have hcnt : ¬ (buildFreq draws).roundsCount = 0 := by
    rw [buildFreq_roundsCount]
    cases draws with
    | nil => exact absurd rfl hne
    | cons d ds => simp
  have hgperm : ((buildFreq draws).groupRanked.map Prod.fst).Perm [1, 2, 3, 4, 5] := by
    rw [buildFreq_groupRanked]
    have h := rankCounts_keys_perm ((draws.foldl stepDraw initFreqState).groupCounts)
    rwa [final_group_keys draws (fun d hd => (hval d hd).1)] at h
  have hglen : ((buildFreq draws).groupRanked.map Prod.fst).length = 5 := by
    rw [hgperm.length_eq]
    rfl
  have hplen6 : (draws.foldl stepDraw initFreqState).posCounts.length = 6 :=
    (stInv_fold draws initFreqState stInv_init).2.1
  have hposr : ∀ p : Nat, p < 6 →
      ∃ r, ((((buildFreq draws).positions.map
          (fun pf => pf.ranked.map Prod.fst)).get? p).getD []) = r ∧
        r.length = 10 ∧ ∀ v ∈ r, v ≤ 9 := by
    intro p hp
    have hpc : ∃ c, (draws.foldl stepDraw initFreqState).posCounts.get? p = some c := by
      have hlt : p < (draws.foldl stepDraw initFreqState).posCounts.length := by
        rw [hplen6]; exact hp
      exact ⟨_, List.get?_eq_some.mpr ⟨hlt, rfl⟩⟩
    obtain ⟨c, hc⟩ := hpc
    have hkeys : keysOf c = digitKeys :=
      final_pos_keys draws (fun d hd => (hval d hd).2) hc
    have hnm : ∃ nm, POS_NAMES.get? p = some nm := by
      interval_cases p <;> exact ⟨_, rfl⟩
    obtain ⟨nm, hnm⟩ := hnm
    have hpos : (buildFreq draws).positions.get? p = some (PosFreq.mk nm c (rankCounts c)) := by
      rw [buildFreq_positions, List.get?_zipWith, hnm, hc]
    have hperm : ((rankCounts c).map Prod.fst).Perm digitKeys := by
      have h := rankCounts_keys_perm c
      rwa [hkeys] at h
    refine ⟨(rankCounts c).map Prod.fst, ?_, by rw [hperm.length_eq]; rfl, ?_⟩
    · rw [List.get?_map, hpos]
      rfl
    · intro v hv
      exact mem_digitKeys.mp (hperm.mem_iff.mp hv)
  have hgrp : ∀ idx : Int, 0 ≤ idx →
      ∃ g, jsGet ((buildFreq draws).groupRanked.map Prod.fst)
          (Int.tmod idx ((((buildFreq draws).groupRanked.map Prod.fst).length : Nat) : Int)) =
          some g ∧ 1 ≤ g ∧ g ≤ 5 := by
    intro idx hidx
    have h0 : (0 : Int) ≤ Int.tmod idx
        (((buildFreq draws).groupRanked.map Prod.fst).length : Int) :=
      Int.tmod_nonneg _ hidx
    have hlt : Int.tmod idx
        ((((buildFreq draws).groupRanked.map Prod.fst).length : Nat) : Int) <
        (((buildFreq draws).groupRanked.map Prod.fst).length : Int) := by
      refine Int.tmod_lt_of_pos _ ?_
      rw [hglen]
      decide
    obtain ⟨g, hg, hgmem⟩ := jsGet_bounds h0 hlt
    exact ⟨g, hg, mem_groupKeys.mp (hgperm.mem_iff.mp hgmem)⟩
  have hdig : ∀ p : Nat, p < 6 → ∀ idx : Int, 0 ≤ idx → ∀ tier : String,
      ∃ v, jsGet ((((buildFreq draws).positions.map
            (fun pf => pf.ranked.map Prod.fst)).get? p).getD [])
          (pickIndex tier (p + 1) idx
            (((((buildFreq draws).positions.map
              (fun pf => pf.ranked.map Prod.fst)).get? p).getD []).length)) =
          some v ∧ v ≤ 9 := by
    intro p hp idx hidx tier
    obtain ⟨r, hr, hrlen, hrmem⟩ := hposr p hp
    rw [hr]
    have hpb := @pickIndex_bounds tier (p + 1) idx r.length hidx (by rw [hrlen]; decide)
    obtain ⟨v, hv, hvmem⟩ := jsGet_bounds hpb.1 (by exact_mod_cast hpb.2)
    exact ⟨v, hv, hrmem v hvmem⟩
  constructor
  · have hok : recommendFromFreq (buildFreq draws) n cycle =
        Except.ok ((List.range n).map (fun i =>
          { group := jsGet ((buildFreq draws).groupRanked.map Prod.fst)
              (Int.tmod (cycle + (i : Int))
                ((((buildFreq draws).groupRanked.map Prod.fst).length : Nat) : Int)),
            digits := (List.range 6).map (fun p =>
              jsGet ((((buildFreq draws).positions.map
                  (fun pf => pf.ranked.map Prod.fst)).get? p).getD [])
                (pickIndex (if n = 1 then "top" else if n = 5 then "topmix" else "mix")
                  (p + 1) (cycle + (i : Int))
                  (((((buildFreq draws).positions.map
                    (fun pf => pf.ranked.map Prod.fst)).get? p).getD []).length))) })) := by
      unfold recommendFromFreq
      rw [if_neg hcnt]
    refine ⟨_, hok, by simp, ?_⟩
    intro t ht
    obtain ⟨i, hi, rfl⟩ := List.mem_map.mp ht
    have hidx : (0 : Int) ≤ cycle + (i : Int) := by positivity
    refine ⟨hgrp (cycle + (i : Int)) hidx, by simp, ?_⟩
    intro o ho
    obtain ⟨p, hp, rfl⟩ := List.mem_map.mp ho
    exact hdig p (List.mem_range.mp hp) (cycle + (i : Int)) hidx _
  · intro g h1 h5
    interval_cases g <;> exact ⟨rfl, by decide⟩

/-- Witness for C5 on the one-record history with count 5 and cycle 3. -/
theorem generator_bounds_witness :
    (∃ ts, recommendFromFreq (buildFreq [demoDraw]) 5 3 = Except.ok ts ∧
      ts.length = 5 ∧
      ∀ t ∈ ts, (∃ g, t.group = some g ∧ 1 ≤ g ∧ g ≤ 5) ∧
        t.digits.length = 6 ∧
        ∀ o ∈ t.digits, ∃ v, o = some v ∧ v ≤ 9) ∧
    (∀ g, 1 ≤ g → g ≤ 5 → (secondGroups g).length = 4 ∧ g ∉ secondGroups g) :=
  generator_bounds [demoDraw] 5 3 (by decide) (by decide) (by decide)

/-- C5 counterexample: with the valid one-record history and cycle −1 the
generated ticket's group is JS `undefined` (modelled `none`), hence not a
group in [1, 5]; moreover generated tickets carry no alternateGroups field at
all. -/
theorem generator_negative_cycle_group_undefined :
    ¬ ∀ ts, recommendFromFreq (buildFreq [demoDraw]) 1 (-1) = Except.ok ts →
      ∀ t ∈ ts, ∃ g, t.group = some g ∧ 1 ≤ g ∧ g ≤ 5 := by
  intro h
  have hticket := h [⟨none, [some 6, some 3, some 9, some 5, some 6, some 6]⟩]
    (by rfl) _ (List.mem_singleton_self _)
  obtain ⟨g, hg, _⟩ := hticket
  exact Option.noConfusion hg

end Yeongeum
